import Mathlib

/-!
# Verification of the lariat query compiler

A shallow embedding of `src/lariat/models/symbolic.py` and
`src/lariat/models/query_compiler.py`: the symbolic expression model
(`Q`, `FindOpExpression`, `RawFindExpression`), the builder operations
(`_combine`, `__invert__`), and the compile pipeline
(`push_negations`, `distribute`, `flatten`, group processing, the
subset-chain validator and the emitter), together with theorems about
the claims of the specification.

Python objects are modelled as follows: expression trees become the
inductive `Expr` (mirroring the dynamic union `Q | FindOpExpression |
RawFindExpression` the Python code dispatches on with `isinstance`);
`dict` becomes an insertion-ordered association list with
replace-at-position update; `set` becomes a duplicate-free list
(`List.dedup`, first occurrences kept) whose iteration order is
irrelevant here because the only place a negation set is iterated sorts
it by `repr` first; raised exceptions become `Except`.  `list.sort` /
`sorted` become a stable insertion sort.  Machine integers do not occur.
-/

namespace Lariat

/-- The two connectors of `Q` (`Q.AND = "AND"`, `Q.OR = "OR"`). -/
inductive Conn where
  | and
  | or
deriving DecidableEq

/-- `Q.default = Q.AND`. -/
def Conn.default : Conn := .and

/-- A `lariat.models.fields.Field`.  The compiler treats fields as opaque
identities; the only parts it reads are the layout name (`field.name`,
used for the emitted parameters) and the `repr`, which interpolates the
Python class name (`IntField`, `StringField`, ...) and the layout name:
`<{type(self).__name__} '{self.name}'>`.  `Field` defines no `__eq__`,
so equality is object identity; we model each distinct field object as a
distinct value of this structure. -/
structure Field where
  className : String
  name : String
deriving DecidableEq

/-- A Python value that can stand on the right-hand side of a comparison:
the pre-serialized payloads (`str`, `int`) plus the objects that
`FindOpExpression.__init__` inspects `rhs` for (`FindOpExpression`,
`SField`, and the `RawFindExpression` escape hatch, which that
constructor does *not* reject). -/
inductive RVal where
  | str (s : String)
  | int (n : Int)
  | litFindOp (lhs : Field) (op : String) (rhs : RVal)
  | litSField (f : Field)
  | litRaw (f : Field) (query : String)
deriving DecidableEq

/-- The characters escaped by `escape_find_value`, in source order
(backslash first, so backslashes introduced by the later replacements
are not re-escaped).  Every entry of the source's `escape_chars` list is
a single character. -/
def escapeChars : List Char :=
  ['\\', '=', '>', '<', '!', '*', '?', '@', '#', '\"', '\n', '\r', '\t']

/-- `value.replace(ch, ...)` for a single-character pattern `ch` (the
only patterns `escape_find_value` uses): replace every occurrence of the
character by the replacement string. -/
def replaceChar (c : Char) (rep : List Char) : List Char → List Char
  | [] => []
  | x :: rest => (if x = c then rep else [x]) ++ replaceChar c rep rest

/-- `escape_find_value` on the character list of a string: fold the
thirteen single-character replacements in source order. -/
def escapeFindChars (s : List Char) : List Char :=
  escapeChars.foldl (fun v ch => replaceChar ch ['\\', ch] v) s

/-- `escape_find_value`: backslash-escape FileMaker metacharacters in a
string; non-`str` values are returned unchanged (`if not isinstance
(value, str): return value`). -/
def escape_find_value (value : RVal) : RVal :=
  match value with
  | .str s => .str (String.mk (escapeFindChars s.data))
  | v => v

/-- A leaf literal: `FindOpExpression` (field, operator, value) or
`RawFindExpression` (field, raw FileMaker query fragment). -/
inductive Lit where
  | fop (lhs : Field) (op : String) (rhs : RVal)
  | raw (field : Field) (query : String)
deriving DecidableEq

/-- An expression tree node: a literal leaf or a `Q` group
(connector, negated flag, children), exactly the dynamic union the
compiler dispatches on with `isinstance`. -/
inductive Expr where
  | lit (l : Lit)
  | q (connector : Conn) (negated : Bool) (children : List Expr)

mutual

/-- Structural equality on expression trees is decidable (the `deriving`
handler does not treat nested inductives, so the instance is spelled
out). -/
def exprDecEq : (a b : Expr) → Decidable (a = b)
  | .lit l₁, .lit l₂ =>
    match decEq l₁ l₂ with
    | .isTrue h => .isTrue (by rw [h])
    | .isFalse h => .isFalse (by intro hh; injection hh; contradiction)
  | .lit _, .q _ _ _ => .isFalse nofun
  | .q _ _ _, .lit _ => .isFalse nofun
  | .q c₁ n₁ ch₁, .q c₂ n₂ ch₂ =>
    match decEq c₁ c₂, decEq n₁ n₂, exprListDecEq ch₁ ch₂ with
    | .isTrue h₁, .isTrue h₂, .isTrue h₃ => .isTrue (by rw [h₁, h₂, h₃])
    | .isFalse h, _, _ => .isFalse (by intro hh; injection hh; contradiction)
    | _, .isFalse h, _ => .isFalse (by intro hh; injection hh; contradiction)
    | _, _, .isFalse h => .isFalse (by intro hh; injection hh; contradiction)

/-- Decidable equality on lists of expression trees. -/
def exprListDecEq : (as bs : List Expr) → Decidable (as = bs)
  | [], [] => .isTrue rfl
  | [], _ :: _ => .isFalse nofun
  | _ :: _, [] => .isFalse nofun
  | a :: as, b :: bs =>
    match exprDecEq a b, exprListDecEq as bs with
    | .isTrue h₁, .isTrue h₂ => .isTrue (by rw [h₁, h₂])
    | .isFalse h, _ => .isFalse (by intro hh; injection hh; contradiction)
    | _, .isFalse h => .isFalse (by intro hh; injection hh; contradiction)

end

instance : DecidableEq Expr := exprDecEq

/-- The errors `FindOpExpression.__init__` raises (all `TypeError` in the
source; the constructor distinguishes them only by message). -/
inductive InitErr where
  | chainedExpression
  | twoFields
deriving DecidableEq

/-- `FindOpExpression.__init__`: rejects an `rhs` that is itself a
`FindOpExpression` ("Can not chain field expressions") or an `SField`
("Field expression can not contain two fields"); any *string* operator
token is accepted unchecked, and the value is stored escaped
(`self.rhs = escape_find_value(rhs)`). -/
def findOpInit (lhs : Field) (op : String) (rhs : RVal) : Except InitErr Expr :=
  match rhs with
  | .litFindOp _ _ _ => .error .chainedExpression
  | .litSField _ => .error .twoFields
  | _ => .ok (.lit (.fop lhs op (escape_find_value rhs)))

/-- `RawFindExpression.__init__` (both arguments type-checked as
`Field` / `str`, which the embedding enforces by typing). -/
def rawInit (field : Field) (query : String) : Expr :=
  .lit (.raw field query)

/-- `Q(*args)` with explicit connector and negated flag
(`Q.__init__`; keyword-argument children are not used by the query
code and are not modelled). -/
def mkQ (children : List Expr) (connector : Conn) (negated : Bool) : Expr :=
  .q connector negated children

/-- `Q._combine(other, connector)`.  A literal operand is wrapped in a
`Q` first; if the receiver already uses the requested connector and is
not negated, children are concatenated into a copy of the receiver
(`copy.deepcopy` followed by `extend`/`append` — pure values here),
otherwise a new two-child group is created.  The receiver is the group
`(sc, sn, schildren)`. -/
def qCombine (sc : Conn) (sn : Bool) (schildren : List Expr) (other : Expr)
    (connector : Conn) : Expr :=
  let other := match other with
    | .lit l => .q Conn.default false [.lit l]
    | o => o
  if sc = connector ∧ sn = false then
    match other with
    | .q oc onn ochildren =>
      if oc = connector ∧ onn = false then .q sc sn (schildren ++ ochildren)
      else .q sc sn (schildren ++ [.q oc onn ochildren])
    | o => .q sc sn (schildren ++ [o])
  else
    .q connector false [.q sc sn schildren, other]

/-- `a | b` on expressions: `Q.__or__`, with `FindOpExpression.__or__` /
`RawFindExpression.__or__` first wrapping the literal receiver in a `Q`. -/
def exprOr (a b : Expr) : Expr :=
  match a with
  | .q c n ch => qCombine c n ch b .or
  | .lit l => qCombine Conn.default false [.lit l] b .or

/-- `a & b` on expressions (`Q.__and__` and the literal wrappers). -/
def exprAnd (a b : Expr) : Expr :=
  match a with
  | .q c n ch => qCombine c n ch b .and
  | .lit l => qCombine Conn.default false [.lit l] b .and

/-- `~a`: `Q.__invert__` copies the group and toggles `negated`;
`FindOpExpression.__invert__` / `RawFindExpression.__invert__` first
wrap the literal in a `Q`. -/
def exprInvert (a : Expr) : Expr :=
  match a with
  | .q c n ch => .q c (!n) ch
  | .lit l => .q Conn.default (!false) [.lit l]

/-- `isinstance(x, Q)`. -/
def isQ : Expr → Bool
  | .q _ _ _ => true
  | .lit _ => false

mutual

/-- Size of an expression tree (used only to furnish the fuel bound of
`distribute`; Python needs no such measure). -/
def esize : Expr → Nat
  | .lit _ => 1
  | .q _ _ children => 1 + esizeList children

/-- Sum of the sizes of a child list. -/
def esizeList : List Expr → Nat
  | [] => 0
  | e :: es => esize e + esizeList es

end

mutual

/-- `QueryCompiler.push_negations`, with the flag flip of the source
(`new_child = copy.deepcopy(child); new_child.negated = not
new_child.negated`) carried as the extra boolean `flip` so that the
recursion is structural: `pushAux flip e` is `push_negations` applied to
`e` with its negated flag xor-ed with `flip` (a `deepcopy` is a pure
value here).  A negated group flips its connector (De Morgan), re-wraps
literal children in singleton negated groups and recurses flipped into
group children; a non-negated group recurses into its group children. -/
def pushAux : Bool → Expr → Expr
  | _, .lit l => .lit l
  | flip, .q c n children =>
    if xor n flip then
      .q (if c = .and then Conn.or else Conn.and) false (pushNegatedChildren children)
    else
      .q c false (pushPlainChildren children)

/-- The child loop of the negated case of `push_negations`: group
children are flipped and pushed, literal children are wrapped in a
singleton negated group. -/
def pushNegatedChildren : List Expr → List Expr
  | [] => []
  | child :: rest =>
    (if isQ child then pushAux true child else .q Conn.default true [child]) ::
      pushNegatedChildren rest

/-- The child loop of the non-negated case of `push_negations`: group
children are pushed, literal children stay. -/
def pushPlainChildren : List Expr → List Expr
  | [] => []
  | child :: rest =>
    (if isQ child then pushAux false child else child) :: pushPlainChildren rest

end

/-- `QueryCompiler.push_negations`. -/
def push_negations (e : Expr) : Expr := pushAux false e

mutual

/-- `QueryCompiler.flatten`: splice the children of a non-negated child
group with the parent's connector into the parent's child list. -/
def flatten : Expr → Expr
  | .lit l => .lit l
  | .q c n children => .q c n (flattenChildren c children)

/-- The child loop of `flatten` for a parent with connector `c`: a group
child is flattened first, then spliced (same connector, not negated) or
appended; a literal child is appended. -/
def flattenChildren (c : Conn) : List Expr → List Expr
  | [] => []
  | child :: rest =>
    (if isQ child then
      match flatten child with
      | .q fc fn fch => if fc = c ∧ fn = false then fch else [.q fc fn fch]
      | .lit l => [.lit l]
    else [child]) ++ flattenChildren c rest

end

/-- Split a child list at the first OR-group (`or_child_idx` scan in
`QueryCompiler.distribute`; only the connector is tested, not the
negated flag), returning the children before it, the OR-group, and the
children after it. -/
def findFirstOr : List Expr → Option (List Expr × Expr × List Expr)
  | [] => none
  | child :: rest =>
    match child with
    | .q .or n ch => some ([], .q .or n ch, rest)
    | other =>
      match findFirstOr rest with
      | some (before, orChild, after) => some (other :: before, orChild, after)
      | none => none

/-- `QueryCompiler.distribute`: distribute children first, then, at an
AND-group with an OR-group child, rebuild one AND-group per OR-item and
recurse on each.  Python's recursion terminates on the shrinking object
graph; the embedding makes the same recursion total with an explicit
fuel that `to_dnf` instantiates generously (when the fuel runs out the
input is returned unchanged — no theorem below depends on the fuel
sufficing, and every concrete evaluation in this file is far below the
bound). -/
def distribute (fuel : Nat) (e : Expr) : Expr :=
  match fuel with
  | 0 => e
  | fuel + 1 =>
    match e with
    | .lit l => .lit l
    | .q c n children =>
      let newChildren := children.map (fun child =>
        if isQ child then distribute fuel child else child)
      if c = .and then
        match findFirstOr newChildren with
        | some (before, orChild, after) =>
          let others := before ++ after
          let orChildren := match orChild with | .q _ _ ch => ch | o => [o]
          .q .or false (orChildren.map (fun item =>
            distribute fuel (.q .and false (item :: others))))
        | none => .q c n newChildren
      else .q c n newChildren

/-- Fuel bound used by `to_dnf` for `distribute` (a termination artifact
of the embedding, see `distribute`). -/
def distFuel (e : Expr) : Nat := 2 ^ esize e

/-- Fuel-adequacy predicate for `distribute` (an artifact of the
embedding, not of the source): `distOk fuel e` holds when `distribute
fuel e` completes every recursive call before the fuel runs out, so
that any larger fuel computes the same result
(`distribute_fuel_agree`). -/
def distOk (fuel : Nat) (e : Expr) : Bool :=
  match fuel with
  | 0 => false
  | fuel + 1 =>
    match e with
    | .lit _ => true
    | .q c _ children =>
      (children.all fun child => if isQ child then distOk fuel child else true) &&
      (if c = .and then
        match findFirstOr (children.map fun child =>
            if isQ child then distribute fuel child else child) with
        | some (before, orChild, after) =>
          let others := before ++ after
          let orChildren := match orChild with | .q _ _ ch => ch | o => [o]
          orChildren.all fun item => distOk fuel (.q .and false (item :: others))
        | none => true
      else true)

/-- `QueryCompiler.to_dnf`: push negations, distribute, flatten.  (On a
bare literal the source returns it unchanged before the three stages;
each stage is the identity on literals, so the composition agrees.) -/
def to_dnf (e : Expr) : Expr :=
  let p := push_negations e
  flatten (distribute (distFuel p) p)

/-- The exceptions `QueryCompiler.compile` (and `add_param`) can raise
(`ValueError` with distinct messages in the source). -/
inductive CErr where
  | cannotNegate
  | unrepresentable
  | unsupportedOp (op : String)
deriving DecidableEq

/-- A processed branch: the positive expression list and the negated
("omit") set of the branch (`{"pos": pos_exprs, "neg": set(neg_exprs)}`;
the Python `set` is modelled as the deduplicated list — membership and
size agree, and the only iteration of it below sorts it first). -/
structure PGroup where
  pos : List Expr
  neg : List Expr
deriving DecidableEq

/-- `QueryCompiler.invert_op`: invert a comparison using the fixed
inverse table, or `None`.  The new literal is built by the
`FindOpExpression` constructor, which re-escapes the (already escaped)
stored value. -/
def invert_op (lhs : Field) (op : String) (rhs : RVal) : Option Lit :=
  match ([("neq", "eq"), ("gt", "lte"), ("gte", "lt"), ("lt", "gte"),
          ("lte", "gt")] : List (String × String)).lookup op with
  | some opInv => some (.fop lhs opInv (escape_find_value rhs))
  | none => none

/-- The body of the per-child loop of `QueryCompiler.compile`'s group
processing: partition one child into the positive list / negated list
accumulator. -/
def processChild (acc : List Expr × List Expr) (child : Expr) :
    Except CErr (List Expr × List Expr) :=
  let (pos, neg) := acc
  match child with
  | .q _ true ch =>
    match ch with
    | [] => .ok (pos, neg)
    | expr :: _ =>
      match expr with
      | .lit (.fop lhs op rhs) =>
        match invert_op lhs op rhs with
        | some inv => .ok (pos ++ [.lit inv], neg)
        | none => .ok (pos, neg ++ [.lit (.fop lhs op rhs)])
      | .lit (.raw f qr) => .ok (pos, neg ++ [.lit (.raw f qr)])
      | .q _ _ _ => .error .cannotNegate
  | .q _ false ch => .ok (pos ++ ch, neg)
  | .lit (.fop lhs op rhs) =>
    if op = "neq" then
      .ok (pos, neg ++ [.lit (.fop lhs "eq" (escape_find_value rhs))])
    else .ok (pos ++ [.lit (.fop lhs op rhs)], neg)
  | .lit (.raw f qr) => .ok (pos ++ [.lit (.raw f qr)], neg)

/-- Process one DNF branch: flatten it if it is a group, collect its
children (a bare literal stands for the one-element child list), run the
partition loop, and form the negation set. -/
def processGroup (group : Expr) : Except CErr PGroup := do
  let group := match group with
    | .q c n ch => flatten (.q c n ch)
    | g => g
  let children := match group with
    | .q _ _ ch => ch
    | g => [g]
  let (pos, neg) ← children.foldlM processChild ([], [])
  .ok ⟨pos, neg.dedup⟩

/-- The top-level branch list of a DNF tree: the children of a
non-negated OR root, else the single implicit branch. -/
def topGroups (dnf : Expr) : List Expr :=
  match dnf with
  | .q .or false ch => ch
  | g => [g]

/-- The group-processing stage of `QueryCompiler.compile`: DNF
conversion followed by per-branch partitioning. -/
def processedGroups (q : Expr) : Except CErr (List PGroup) :=
  (topGroups (to_dnf q)).mapM processGroup

/-- Stable insertion (`stableInsert before x l` places `x` before the
first element `y` with `before x y`, after everything else — in
particular after elements it ties with). -/
def stableInsert (before : α → α → Bool) (x : α) : List α → List α
  | [] => [x]
  | y :: ys => if before x y then x :: y :: ys else y :: stableInsert before x ys

/-- Stable sort, the specification Python's `list.sort` / `sorted`
fulfil: sorted by the key and equal keys kept in input order. -/
def stableSortBy (before : α → α → Bool) (l : List α) : List α :=
  l.foldl (fun acc x => stableInsert before x acc) []

/-- `processed_groups.sort(key=lambda g: len(g["neg"]), reverse=True)`:
stable sort by negation-set size, descending. -/
def sortGroupsDesc (gs : List PGroup) : List PGroup :=
  stableSortBy (fun g h => h.neg.length < g.neg.length) gs

/-- `"AND"` / `"OR"`. -/
def connStr : Conn → String
  | .and => "AND"
  | .or => "OR"

/-- `", ".join` of Python's list repr. -/
def joinReprs : List String → String
  | [] => ""
  | [s] => s
  | s :: rest => s ++ ", " ++ joinReprs rest

/-- Python `repr` of a string: quoted with `'` (with `"` if the string
contains `'` but no `"`), backslash-escaping the backslash, the quote
character, and the control characters the values at hand can contain.
(Python additionally hex-escapes unprintable characters, which no value
in this development contains.) -/
def pyReprStr (s : String) : String :=
  let has : Char → Bool := fun c => s.data.any (fun x => x = c)
  let qc : Char := if has '\'' ∧ ¬has '"' then '"' else '\''
  let esc : Char → String := fun c =>
    if c = '\\' then "\\\\"
    else if c = qc then "\\" ++ qc.toString
    else if c = '\n' then "\\n"
    else if c = '\r' then "\\r"
    else if c = '\t' then "\\t"
    else c.toString
  qc.toString ++ String.join (s.data.map esc) ++ qc.toString

/-- `Field.__repr__`: interpolates the Python class name and the layout
name. -/
def reprField (f : Field) : String :=
  "<" ++ f.className ++ " '" ++ f.name ++ "'>"

/-- Python `repr` of a right-hand-side value.  (`litSField` has no
`__repr__` in the source — Python would print an object address — but it
can never be stored in a constructed literal, since `findOpInit` rejects
it.) -/
def reprRVal : RVal → String
  | .str s => pyReprStr s
  | .int n => toString n
  | .litFindOp lhs op rhs =>
    "<FindOpExpression " ++ reprField lhs ++ " " ++ op ++ " " ++ reprRVal rhs ++ ">"
  | .litSField f => "<SField " ++ reprField f ++ ">"
  | .litRaw f qr => "<RawFindExpression " ++ reprField f ++ " @ " ++ pyReprStr qr ++ ">"

/-- `FindOpExpression.__repr__` / `RawFindExpression.__repr__`. -/
def reprLit : Lit → String
  | .fop lhs op rhs =>
    "<FindOpExpression " ++ reprField lhs ++ " " ++ op ++ " " ++ reprRVal rhs ++ ">"
  | .raw f qr => "<RawFindExpression " ++ reprField f ++ " @ " ++ pyReprStr qr ++ ">"

mutual

/-- `repr` on expression-tree values (`Q.__repr__` for groups, which
interpolates the Python list repr of the children). -/
def reprExpr : Expr → String
  | .lit l => reprLit l
  | .q c n ch =>
    let inner := connStr c ++ ": [" ++ joinReprs (reprExprList ch) ++ "]"
    if n then "(NOT (" ++ inner ++ "))" else "(" ++ inner ++ ")"

/-- `repr` of each element of a child list. -/
def reprExprList : List Expr → List String
  | [] => []
  | e :: es => reprExpr e :: reprExprList es

end

/-- Python's `<` on strings (and Lean's): lexicographic comparison by
code point, written out structurally so that it evaluates inside the
kernel. -/
def strLtChars : List Char → List Char → Bool
  | [], [] => false
  | [], _ :: _ => true
  | _ :: _, [] => false
  | a :: as, b :: bs =>
    if a.toNat < b.toNat then true
    else if b.toNat < a.toNat then false
    else strLtChars as bs

/-- Python's `<` on strings. -/
def pyStrLt (a b : String) : Bool := strLtChars a.data b.data

/-- `sorted(group["neg"], key=repr)`: stable sort, ascending by the
`repr` string. -/
def sortNegByRepr (l : List Expr) : List Expr :=
  stableSortBy (fun a b => pyStrLt (reprExpr a) (reprExpr b)) l

/-- `validate` loop of `QueryCompiler.compile`: each adjacent pair of
(sorted) groups must satisfy `current_neg.issuperset(next_neg)`. -/
def validateGroups : List PGroup → Except CErr Unit
  | [] => .ok ()
  | [_] => .ok ()
  | g₁ :: g₂ :: rest =>
    if g₂.neg.all (fun x => decide (x ∈ g₁.neg)) then validateGroups (g₂ :: rest)
    else .error .unrepresentable

/-- The mutable state of a `QueryCompiler` instance: `self.params` (an
insertion-ordered dict) and `self.counter`.  `__init__` sets
`params = {}` and `counter = 0`; `compile` resets neither. -/
structure CState where
  params : List (String × String)
  counter : Nat
deriving DecidableEq

/-- The state of a freshly constructed `QueryCompiler`. -/
def initState : CState := ⟨[], 0⟩

/-- Insertion-ordered dict update: replace in place if the key exists,
else append. -/
def dictInsert : List (String × String) → String → String → List (String × String)
  | [], k, v => [(k, v)]
  | (k', v') :: rest, k, v =>
    if k' = k then (k, v) :: rest else (k', v') :: dictInsert rest k v

/-- `QueryCompiler._get_id`: increment the counter and format `q{n}`. -/
def getId (st : CState) : String × CState :=
  let c := st.counter + 1
  ("q" ++ toString c, { st with counter := c })

/-- Modelled from the spec: `Field.to_filemaker`, which `add_param` calls
as `expr.lhs.to_filemaker(expr.rhs)`, is not in the repository snapshot
(only its callers are).  Spec §1/§3/§4.7: leaves hold "pre-serialized
string values" and the emitter applies only the operator decoration, so
the conversion is the identity on a stored string (decimal notation for
a stored int).  The remaining value forms cannot be stored by the
checked constructors. -/
def to_filemaker (rhs : RVal) : String :=
  match rhs with
  | .str s => s
  | .int n => toString n
  | v => reprRVal v

/-- The operator table of `QueryCompiler.add_param` (`op_map`). -/
def op_map : List (String × String) :=
  [("eq", "="), ("cn", "*{}*"), ("bw", "{}*"), ("ew", "*{}"),
   ("gt", ">"), ("gte", ">="), ("lt", "<"), ("lte", "<=")]

/-- Split a character list at each occurrence of the format placeholder
`"{}"`. -/
def splitPlaceholder : List Char → List (List Char)
  | [] => [[]]
  | '{' :: '}' :: rest => [] :: splitPlaceholder rest
  | c :: rest =>
    match splitPlaceholder rest with
    | p :: ps => (c :: p) :: ps
    | [] => [[c]]

/-- Apply an `op_map` entry to a value: `fmt.format(value)` when the
pattern contains `"{}"` (substitute the value for each placeholder),
else prefix concatenation (`f"{prefix_or_fmt}{value}"`). -/
def formatOp (pat value : String) : String :=
  match splitPlaceholder pat.data with
  | [_] => pat ++ value
  | parts => String.join (List.intersperse value (parts.map String.mk))

/-- `QueryCompiler.add_param`: draw a fresh identifier, append it to the
current id list, and write the two wire parameters; an operator outside
the table raises.  A child that is neither a `FindOpExpression` nor a
`RawFindExpression` (a nested `Q` in the positive list) matches no
`isinstance` branch: the identifier is consumed but no parameter is
written. -/
def add_param (st : CState) (qIds : List String) (expr : Expr) :
    Except CErr (CState × List String) :=
  let (qid, st) := getId st
  let qIds := qIds ++ [qid]
  match expr with
  | .lit (.fop lhs op rhs) =>
    match op_map.lookup op with
    | some pat =>
      let fmValue := formatOp pat (to_filemaker rhs)
      let params := dictInsert st.params ("-" ++ qid) lhs.name
      let params := dictInsert params ("-" ++ qid ++ ".value") fmValue
      .ok ({ st with params := params }, qIds)
    | none => .error (.unsupportedOp op)
  | .lit (.raw f qr) =>
    let params := dictInsert st.params ("-" ++ qid) f.name
    let params := dictInsert params ("-" ++ qid ++ ".value") qr
    .ok ({ st with params := params }, qIds)
  | .q _ _ _ => .ok (st, qIds)

/-- Run `add_param` over a list of expressions, collecting their ids. -/
def addParams (st : CState) (exprs : List Expr) :
    Except CErr (CState × List String) :=
  exprs.foldlM (fun acc e => add_param acc.1 acc.2 e) (st, [])

/-- Emit one branch: ids for the positive literals, then for the negated
literals in ascending `repr` order; the branch's directive parts are the
parenthesized positive id list (if any) followed by one `!(id)` term per
negated id. -/
def emitGroup (st : CState) (g : PGroup) : Except CErr (CState × List String) := do
  let (st, posIds) ← addParams st g.pos
  let (st, negIds) ← addParams st (sortNegByRepr g.neg)
  let parts :=
    (if posIds.isEmpty then [] else ["(" ++ String.intercalate "," posIds ++ ")"]) ++
      negIds.map (fun nid => "!(" ++ nid ++ ")")
  .ok (st, parts)

/-- One step of the branch loop of the emitter: emit the branch, then
append its `";"`-joined parts to `query_ids` (a branch with no parts
contributes nothing). -/
def emitStep (acc : CState × List String) (g : PGroup) :
    Except CErr (CState × List String) := do
  let (st, parts) ← emitGroup acc.1 g
  .ok (st, acc.2 ++ (if parts.isEmpty then [] else [String.intercalate ";" parts]))

/-- Emit all branches: each branch's parts are `";"`-joined into its
`query_ids` entry (branches whose part list is empty contribute
nothing), and the entries are `";"`-joined into the directive. -/
def emitGroups (st : CState) (gs : List PGroup) : Except CErr (String × CState) := do
  let (st, queryIds) ← gs.foldlM emitStep (st, ([] : List String))
  .ok (String.intercalate ";" queryIds, st)

/-- The back half of `QueryCompiler.compile`, applied to the processed
branches: sort by negation-set size, validate the subset chain, emit. -/
def compileFromGroups (st : CState) (gs : List PGroup) :
    Except CErr ((String × List (String × String)) × CState) := do
  let sorted := sortGroupsDesc gs
  let _ ← validateGroups sorted
  let (queryStr, st) ← emitGroups st sorted
  .ok ((queryStr, st.params), st)

/-- `QueryCompiler.compile`: DNF conversion and group processing, the
subset-chain validation over the size-sorted branches, then emission.
Returns the pair the method returns (`query_str, self.params`) together
with the instance state it leaves behind. -/
def compile (st : CState) (q : Expr) :
    Except CErr ((String × List (String × String)) × CState) := do
  let gs ← processedGroups q
  compileFromGroups st gs

/-- Decidable equality of `Except` results (for concrete evaluations). -/
instance {ε α : Type} [DecidableEq ε] [DecidableEq α] : DecidableEq (Except ε α) :=
  fun a b =>
    match a, b with
    | .ok a, .ok b =>
      if h : a = b then .isTrue (by rw [h])
      else .isFalse (by intro hh; injection hh; contradiction)
    | .error e, .error f =>
      if h : e = f then .isTrue (by rw [h])
      else .isFalse (by intro hh; injection hh; contradiction)
    | .ok _, .error _ => .isFalse nofun
    | .error _, .ok _ => .isFalse nofun

/-! ### The symbolic field methods and concrete test vectors

The field objects and expression builders of the repository's test
models (`tests/test_query_generation*.py`): `Person.name` and
`Person.city` are `StringField("Name")` / `StringField("City")`,
`Person.age` is `IntField("Age")`. -/

/-- `escape_find_value` on a plain string. -/
def escStr (s : String) : String := String.mk (escapeFindChars s.data)

/-- `Person.name`. -/
def fName : Field := ⟨"StringField", "Name"⟩

/-- `Person.age`. -/
def fAge : Field := ⟨"IntField", "Age"⟩

/-- `Person.city`. -/
def fCity : Field := ⟨"StringField", "City"⟩

/-- `StringSField.__eq__`: escape the value and build the raw
`=={value}` exact-match expression. -/
def sEq (f : Field) (v : String) : Expr := rawInit f ("==" ++ escStr v)

/-- `StringSField.__ne__` = `~(self == other)`. -/
def sNe (f : Field) (v : String) : Expr := exprInvert (sEq f v)

/-- `SField.__eq__` on an int field: `FindOpExpression(field, "eq", n)`
(for an int value the constructor's checks pass and escaping is the
identity, see `findOpInit`). -/
def iEq (f : Field) (n : Int) : Expr := .lit (.fop f "eq" (.int n))

/-- `SField.__gt__` on an int field. -/
def iGt (f : Field) (n : Int) : Expr := .lit (.fop f "gt" (.int n))

/-- `StringSField.has_word`: `FindOpExpression(field, "eq", value)` on
the escaped string. -/
def sHasWord (f : Field) (v : String) : Expr := .lit (.fop f "eq" (.str (escStr v)))

/-- `StringSField.contains`: `FindOpExpression(field, "cn", value)` on
the escaped string. -/
def sContains (f : Field) (v : String) : Expr := .lit (.fop f "cn" (.str (escStr v)))

/-- The entry point the tests use: `QueryBuilder.build_query` hands the
compiler `Q(*self._filter)` — the accumulated filter expressions wrapped
in one default (AND, non-negated) group. -/
def wrap (filters : List Expr) : Expr := mkQ filters Conn.default false

/-! ### The directive grammar of claim C3

Two deterministic automata over the directive string.
`matchesClaimedGrammar` is the grammar the claim states:
`branch (";" branch)*` with
`branch := "(" id ("," id)* ")" ("!(" id ")")*` — inside a branch the
omit terms follow the positive list with no separator, and `";"` only
separates branches.  `matchesEmittedGrammar` is the shape the code
actually emits: `part (";" part)*` (or the empty string), where a part
is a parenthesized positive id list or a single `!(id)` term. -/

/-- Identifier characters (the emitted ids are `q` followed by decimal
digits). -/
def isIdChar (c : Char) : Bool := c.isAlphanum

/-- States of the two directive automata. -/
inductive GState where
  | expectOpen
  | posFirst
  | posRest
  | afterGroup
  | omitBang
  | omitFirst
  | omitRest
deriving DecidableEq

/-- One step of the claimed-grammar automaton. -/
def gstep : GState → Char → Option GState
  | .expectOpen, '(' => some .posFirst
  | .posFirst, c => if isIdChar c then some .posRest else none
  | .posRest, c =>
    if isIdChar c then some .posRest
    else if c = ',' then some .posFirst
    else if c = ')' then some .afterGroup
    else none
  | .afterGroup, '!' => some .omitBang
  | .afterGroup, ';' => some .expectOpen
  | .omitBang, '(' => some .omitFirst
  | .omitFirst, c => if isIdChar c then some .omitRest else none
  | .omitRest, c =>
    if isIdChar c then some .omitRest
    else if c = ')' then some .afterGroup
    else none
  | _, _ => none

/-- Run the claimed-grammar automaton. -/
def grun (st : GState) : List Char → Option GState
  | [] => some st
  | c :: rest =>
    match gstep st c with
    | some st' => grun st' rest
    | none => none

/-- The grammar claim C3 states, as a decidable string predicate. -/
def matchesClaimedGrammar (s : String) : Bool :=
  match grun .expectOpen s.data with
  | some st => st = .afterGroup
  | none => false

/-- One step of the emitted-shape automaton: like `gstep` but a part
after a `";"` (or at the start) may be an omit term as well as a
positive list. -/
def pstep : GState → Char → Option GState
  | .expectOpen, '(' => some .posFirst
  | .expectOpen, '!' => some .omitBang
  | .posFirst, c => if isIdChar c then some .posRest else none
  | .posRest, c =>
    if isIdChar c then some .posRest
    else if c = ',' then some .posFirst
    else if c = ')' then some .afterGroup
    else none
  | .afterGroup, ';' => some .expectOpen
  | .omitBang, '(' => some .omitFirst
  | .omitFirst, c => if isIdChar c then some .omitRest else none
  | .omitRest, c =>
    if isIdChar c then some .omitRest
    else if c = ')' then some .afterGroup
    else none
  | _, _ => none

/-- Run the emitted-shape automaton. -/
def prun (st : GState) : List Char → Option GState
  | [] => some st
  | c :: rest =>
    match pstep st c with
    | some st' => prun st' rest
    | none => none

/-- The directive shape the code emits, as a decidable string predicate:
empty, or `part (";" part)*` with `part := "(" id ("," id)* ")" | "!("
id ")"`. -/
def matchesEmittedGrammar (s : String) : Bool :=
  s = "" ||
    match prun .expectOpen s.data with
    | some st => st = .afterGroup
    | none => false

/-! ### Emission characterized by explicit sequential identifiers -/

/-- The identifiers `q(c+1) ... q(c+k)`. -/
def idsFrom (c k : Nat) : List String :=
  (List.range k).map (fun i => "q" ++ Nat.repr (c + i + 1))

/-- The number of identifiers one branch consumes. -/
def groupEmitCount (g : PGroup) : Nat := g.pos.length + (sortNegByRepr g.neg).length

/-- The directive parts of one branch when its positive identifiers
start at `c+1`: the parenthesized positive list (if the branch has
positive literals) followed by one `!(id)` term per negated literal. -/
def groupPartsAt (c : Nat) (g : PGroup) : List String :=
  let posIds := idsFrom c g.pos.length
  let negIds := idsFrom (c + g.pos.length) (sortNegByRepr g.neg).length
  (if posIds.isEmpty then [] else ["(" ++ String.intercalate "," posIds ++ ")"]) ++
    negIds.map (fun nid => "!(" ++ nid ++ ")")

/-- The `query_ids` entries for a branch list whose first identifier is
`q(c+1)`: one `";"`-joined entry per branch with parts. -/
def queryIdsAt (c : Nat) : List PGroup → List String
  | [] => []
  | g :: gs =>
    (let parts := groupPartsAt c g
     if parts.isEmpty then [] else [String.intercalate ";" parts]) ++
      queryIdsAt (c + groupEmitCount g) gs

/-- The directive a branch list produces when identifier numbering
starts after counter value `c`. -/
def directiveFor (c : Nat) (gs : List PGroup) : String :=
  String.intercalate ";" (queryIdsAt c gs)

/-- Total number of identifiers a branch list consumes. -/
def totalEmitCount (gs : List PGroup) : Nat :=
  (gs.map groupEmitCount).sum

/-! ## Heap model of the mutable `Q` object graph

Python `Q` objects are mutable: `Q._combine` and `Q.__invert__` start
from `copy.deepcopy`, `push_negations` deepcopies a child before
flipping its `negated` flag, and `distribute` assigns `q.children =
new_children` in place.  To reason about mutation and aliasing the
following definitions model the object graph explicitly: a heap is a
list of `Q` nodes addressed by position, a child is either an immutable
literal or a reference into the heap, and each source operation is
re-expressed as a heap-passing function.  Recursions over the object
graph carry an explicit fuel (an embedding artifact — the Python
recursions terminate on the finite object graph; fuel exhaustion takes
a harmless fallback and every theorem quantifies over or discharges the
fuel). -/

/-- A child slot of a `Q` node: an immutable literal
(`FindOpExpression`/`RawFindExpression`, never mutated by the compiler)
or a reference to another heap node. -/
inductive HChild where
  | hlit (l : Lit)
  | href (a : Nat)
deriving DecidableEq

/-- A mutable `Q` object: connector, negated flag, children list. -/
structure QNode where
  conn : Conn
  negated : Bool
  children : List HChild
deriving DecidableEq

/-- The object heap: `Q` nodes addressed by list position. -/
abbrev Heap := List QNode

/-- Read a heap cell (out-of-range reads yield an inert empty node;
well-formedness side conditions keep reads in range). -/
def hget (h : Heap) (a : Nat) : QNode := h.getD a ⟨Conn.default, false, []⟩

/-- Overwrite a heap cell in place (Python attribute assignment). -/
def hset (h : Heap) (a : Nat) (node : QNode) : Heap := h.set a node

/-- Allocate a fresh node (Python object construction), returning its
address. -/
def halloc (h : Heap) (node : QNode) : Heap × Nat := (h ++ [node], h.length)

mutual

/-- Read back the pure expression denoted by a heap child, to depth
`fuel` (`none` when the fuel is exhausted before the graph is fully
explored). -/
def absO (h : Heap) : Nat → HChild → Option Expr
  | _, .hlit l => some (.lit l)
  | 0, .href _ => none
  | fuel + 1, .href a =>
    match absList h fuel (hget h a).children with
    | some es => some (.q (hget h a).conn (hget h a).negated es)
    | none => none

/-- Child-list form of `absO`. -/
def absList (h : Heap) : Nat → List HChild → Option (List Expr)
  | _, [] => some []
  | 0, _ :: _ => none
  | fuel + 1, c :: cs =>
    match absO h fuel c, absList h fuel cs with
    | some e, some es => some (e :: es)
    | _, _ => none

end

mutual

/-- `copy.deepcopy` on the object graph: literals are immutable (a copy
is indistinguishable, so they are shared by value), `Q` nodes are
copied bottom-up into fresh cells.  On fuel exhaustion a fresh empty
node is allocated so that the copy is always disjoint from existing
cells. -/
def deepcopyH : Nat → Heap → HChild → Heap × HChild
  | _, h, .hlit l => (h, .hlit l)
  | 0, h, .href a =>
    let (h₁, a₁) := halloc h ⟨(hget h a).conn, (hget h a).negated, []⟩
    (h₁, .href a₁)
  | fuel + 1, h, .href a =>
    let (h₁, cs) := deepcopyListH fuel h (hget h a).children
    let (h₂, a₂) := halloc h₁ ⟨(hget h a).conn, (hget h a).negated, cs⟩
    (h₂, .href a₂)

/-- Child-list loop of `deepcopyH`. -/
def deepcopyListH : Nat → Heap → List HChild → Heap × List HChild
  | _, h, [] => (h, [])
  | 0, h, _ :: _ => (h, [])
  | fuel + 1, h, c :: cs =>
    let (h₁, c₁) := deepcopyH fuel h c
    let (h₂, cs₁) := deepcopyListH fuel h₁ cs
    (h₂, c₁ :: cs₁)

end

/-- `Q._combine(self, other, connector)` on the heap: a non-`Q` operand
is first wrapped in a fresh `Q` (children `[other]`, default connector,
not negated); if `self` has the target connector and is not negated,
`self` is deepcopied and the copy's children list is extended in place
(with `other`'s children when `other` matches the connector too,
sharing them by reference, else with a reference to `other`); otherwise
a fresh two-child node is allocated sharing both operands. -/
def combineH (fuel : Nat) (h : Heap) (selfA : Nat) (other : HChild) (conn : Conn) :
    Heap × Nat :=
  let (h₀, otherA) :=
    match other with
    | .href b => (h, b)
    | .hlit l => halloc h ⟨Conn.default, false, [.hlit l]⟩
  if (hget h₀ selfA).conn = conn ∧ (hget h₀ selfA).negated = false then
    match deepcopyH fuel h₀ (.href selfA) with
    | (h₁, .href objA) =>
      if (hget h₁ otherA).conn = conn ∧ (hget h₁ otherA).negated = false then
        (hset h₁ objA ⟨(hget h₁ objA).conn, (hget h₁ objA).negated,
          (hget h₁ objA).children ++ (hget h₁ otherA).children⟩, objA)
      else
        (hset h₁ objA ⟨(hget h₁ objA).conn, (hget h₁ objA).negated,
          (hget h₁ objA).children ++ [.href otherA]⟩, objA)
    | (h₁, .hlit _) => halloc h₁ ⟨conn, false, [.href selfA, .href otherA]⟩
  else
    halloc h₀ ⟨conn, false, [.href selfA, .href otherA]⟩

/-- `Q.__invert__` on the heap: deepcopy, then flip the copy's
`negated` flag in place. -/
def invertH (fuel : Nat) (h : Heap) (selfA : Nat) : Heap × Nat :=
  match deepcopyH fuel h (.href selfA) with
  | (h₁, .href objA) =>
    (hset h₁ objA ⟨(hget h₁ objA).conn, !(hget h₁ objA).negated,
      (hget h₁ objA).children⟩, objA)
  | (h₁, .hlit _) => (h₁, selfA)

mutual

/-- `QueryCompiler.push_negations` on the heap.  A negated node flips
its connector and rebuilds: each `Q` child is deepcopied, the copy's
`negated` flag is flipped in place, and the copy is pushed recursively;
a literal child is wrapped in a fresh negated singleton node.  A
non-negated node recurses into `Q` children and keeps literals.  Either
way the result is a freshly allocated node. -/
def pushNegH : Nat → Heap → HChild → Heap × HChild
  | _, h, .hlit l => (h, .hlit l)
  | 0, h, .href a =>
    let (h₁, a₁) := halloc h ⟨(hget h a).conn, false, []⟩
    (h₁, .href a₁)
  | fuel + 1, h, .href a =>
    if (hget h a).negated then
      let c := if (hget h a).conn = .and then Conn.or else Conn.and
      let (h₁, cs) := pushNegNegatedH fuel h (hget h a).children
      let (h₂, a₂) := halloc h₁ ⟨c, false, cs⟩
      (h₂, .href a₂)
    else
      let (h₁, cs) := pushNegPlainH fuel h (hget h a).children
      let (h₂, a₂) := halloc h₁ ⟨(hget h a).conn, false, cs⟩
      (h₂, .href a₂)

/-- Child loop of the negated case of `pushNegH`. -/
def pushNegNegatedH : Nat → Heap → List HChild → Heap × List HChild
  | _, h, [] => (h, [])
  | 0, h, _ :: _ => (h, [])
  | fuel + 1, h, c :: cs =>
    match c with
    | .href b =>
      match deepcopyH fuel h (.href b) with
      | (h₁, .href b₁) =>
        let h₂ := hset h₁ b₁ ⟨(hget h₁ b₁).conn, !(hget h₁ b₁).negated,
          (hget h₁ b₁).children⟩
        let (h₃, r) := pushNegH fuel h₂ (.href b₁)
        let (h₄, rs) := pushNegNegatedH fuel h₃ cs
        (h₄, r :: rs)
      | (h₁, .hlit l) =>
        let (h₄, rs) := pushNegNegatedH fuel h₁ cs
        (h₄, .hlit l :: rs)
    | .hlit l =>
      let (h₁, w) := halloc h ⟨Conn.default, true, [.hlit l]⟩
      let (h₂, rs) := pushNegNegatedH fuel h₁ cs
      (h₂, .href w :: rs)

/-- Child loop of the non-negated case of `pushNegH`. -/
def pushNegPlainH : Nat → Heap → List HChild → Heap × List HChild
  | _, h, [] => (h, [])
  | 0, h, _ :: _ => (h, [])
  | fuel + 1, h, c :: cs =>
    match c with
    | .href b =>
      let (h₁, r) := pushNegH fuel h (.href b)
      let (h₂, rs) := pushNegPlainH fuel h₁ cs
      (h₂, r :: rs)
    | .hlit l =>
      let (h₂, rs) := pushNegPlainH fuel h cs
      (h₂, .hlit l :: rs)

end

/-- The `or_child_idx` scan of `QueryCompiler.distribute` on the heap:
split a child list at the first reference to an OR node. -/
def findFirstOrH (h : Heap) : List HChild → Option (List HChild × Nat × List HChild)
  | [] => none
  | c :: rest =>
    match c with
    | .href b =>
      if (hget h b).conn = .or then some ([], b, rest)
      else
        match findFirstOrH h rest with
        | some (bef, oA, aft) => some (.href b :: bef, oA, aft)
        | none => none
    | .hlit l =>
      match findFirstOrH h rest with
      | some (bef, oA, aft) => some (.hlit l :: bef, oA, aft)
      | none => none

mutual

/-- `QueryCompiler.distribute` on the heap.  Children are distributed
first and the results are **assigned in place** (`q.children =
new_children` in the source — the one mutation `compile` performs);
then, at an AND node with an OR child, one fresh AND node per OR item
is allocated (sharing the remaining children by reference), distributed
recursively, and collected under a fresh OR node. -/
def distributeH : Nat → Heap → HChild → Heap × HChild
  | _, h, .hlit l => (h, .hlit l)
  | 0, h, x => (h, x)
  | fuel + 1, h, .href a =>
    let (h₁, cs) := distChildrenH fuel h (hget h a).children
    let h₂ := hset h₁ a ⟨(hget h₁ a).conn, (hget h₁ a).negated, cs⟩
    if (hget h₂ a).conn = .and then
      match findFirstOrH h₂ cs with
      | some (bef, oA, aft) =>
        let (h₃, items) := distItemsH fuel h₂ (hget h₂ oA).children (bef ++ aft)
        let (h₄, a₄) := halloc h₃ ⟨Conn.or, false, items⟩
        (h₄, .href a₄)
      | none => (h₂, .href a)
    else (h₂, .href a)

/-- Child loop of `distributeH` (`Q` children are distributed, literals
kept). -/
def distChildrenH : Nat → Heap → List HChild → Heap × List HChild
  | _, h, [] => (h, [])
  | 0, h, cs => (h, cs)
  | fuel + 1, h, c :: cs =>
    match c with
    | .href b =>
      let (h₁, r) := distributeH fuel h (.href b)
      let (h₂, rs) := distChildrenH fuel h₁ cs
      (h₂, r :: rs)
    | .hlit l =>
      let (h₂, rs) := distChildrenH fuel h cs
      (h₂, .hlit l :: rs)

/-- Per-item loop of the distribution step: `Q(item, *others)` then a
recursive distribute, for each item of the OR child (`others` is shared
by reference across iterations, as in the source). -/
def distItemsH : Nat → Heap → List HChild → List HChild → Heap × List HChild
  | _, h, [], _ => (h, [])
  | 0, h, _ :: _, _ => (h, [])
  | fuel + 1, h, item :: items, others =>
    let (h₁, andA) := halloc h ⟨Conn.and, false, item :: others⟩
    let (h₂, r) := distributeH fuel h₁ (.href andA)
    let (h₃, rs) := distItemsH fuel h₂ items others
    (h₃, r :: rs)

end

mutual

/-- `QueryCompiler.flatten` on the heap: read-only except for the fresh
result nodes (`Q(*new_children, ...)` in the source). -/
def flattenH : Nat → Heap → HChild → Heap × HChild
  | _, h, .hlit l => (h, .hlit l)
  | 0, h, x => (h, x)
  | fuel + 1, h, .href a =>
    let (h₁, cs) := flattenChildrenH fuel h (hget h a).conn (hget h a).children
    let (h₂, a₂) := halloc h₁ ⟨(hget h a).conn, (hget h a).negated, cs⟩
    (h₂, .href a₂)

/-- Child loop of `flattenH`: flatten a `Q` child, then splice its
children when connectors match and it is not negated. -/
def flattenChildrenH : Nat → Heap → Conn → List HChild → Heap × List HChild
  | _, h, _, [] => (h, [])
  | 0, h, _, _ :: _ => (h, [])
  | fuel + 1, h, c, child :: rest =>
    match child with
    | .href b =>
      let (h₁, f) := flattenH fuel h (.href b)
      let part :=
        match f with
        | .href fb =>
          if (hget h₁ fb).conn = c ∧ (hget h₁ fb).negated = false then
            (hget h₁ fb).children
          else [.href fb]
        | .hlit l => [.hlit l]
      let (h₂, rest₁) := flattenChildrenH fuel h₁ c rest
      (h₂, part ++ rest₁)
    | .hlit l =>
      let (h₂, rest₁) := flattenChildrenH fuel h c rest
      (h₂, .hlit l :: rest₁)

end

/-- The tree-transforming phase of `QueryCompiler.compile`
(`to_dnf = push_negations; distribute; flatten`) on the heap — the only
phase of `compile` that ever constructs or writes `Q` nodes (the
emission phase only reads). -/
def toDnfH (fuel : Nat) (h : Heap) (x : HChild) : Heap × HChild :=
  match x with
  | .hlit l => (h, .hlit l)
  | .href a =>
    let (h₁, p) := pushNegH fuel h (.href a)
    let (h₂, d) := distributeH fuel h₁ p
    flattenH fuel h₂ d

/-- `h'` preserves the first `n` cells of `h` (and is at least as
long): nothing below address `n` has been written. -/
def hframe (n : Nat) (h h' : Heap) : Prop :=
  h.length ≤ h'.length ∧ ∀ i, i < n → hget h' i = hget h i

/-- A child slot that only points below address `n` (a literal always
does). -/
def childBelowB (n : Nat) : HChild → Bool
  | .hlit _ => true
  | .href a => a < n

/-- The heap region below `n` is closed: cells there only reference
cells there.  (Checked as a `Bool` so that concrete instances
evaluate.) -/
def closedBelowB (n : Nat) (h : Heap) : Bool :=
  (List.range n).all fun a => (hget h a).children.all (childBelowB n)

/-- A child slot pointing into the region `[n₀, len)` (or a literal). -/
def childInRegion (n₀ len : Nat) : HChild → Prop
  | .hlit _ => True
  | .href a => n₀ ≤ a ∧ a < len

/-- The region `[n₀, h.length)` is closed: its cells only reference
literals or cells of the region. -/
def regionClosed (n₀ : Nat) (h : Heap) : Prop :=
  ∀ a, n₀ ≤ a → a < h.length →
    ∀ c ∈ (hget h a).children, childInRegion n₀ h.length c

end Lariat

namespace Lariat

/-! ## Fidelity of the embedding

The embedding reproduces, bit for bit, every query the repository's
snapshot tests pin down (`tests/test_query_generation.py` and
`tests/test_query_generation_complex.py`). -/

example :
    compile initState (wrap [exprOr (sEq fName "John") (sEq fName "Jane")]) =
      .ok (("(q1);(q2)",
        [("-q1", "Name"), ("-q1.value", "==John"),
         ("-q2", "Name"), ("-q2.value", "==Jane")]),
        ⟨[("-q1", "Name"), ("-q1.value", "==John"),
          ("-q2", "Name"), ("-q2.value", "==Jane")], 2⟩) := rfl

example :
    compile initState
        (wrap [exprOr (exprAnd (sEq fCity "NY") (iGt fAge 20)) (sEq fCity "LA")]) =
      .ok (("(q1,q2);(q3)",
        [("-q1", "City"), ("-q1.value", "==NY"), ("-q2", "Age"), ("-q2.value", ">20"),
         ("-q3", "City"), ("-q3.value", "==LA")]),
        ⟨[("-q1", "City"), ("-q1.value", "==NY"), ("-q2", "Age"), ("-q2.value", ">20"),
          ("-q3", "City"), ("-q3.value", "==LA")], 3⟩) := rfl

example :
    compile initState (wrap [exprInvert (iGt fAge 30)]) =
      .ok (("(q1)", [("-q1", "Age"), ("-q1.value", "<=30")]),
        ⟨[("-q1", "Age"), ("-q1.value", "<=30")], 1⟩) := rfl

example :
    compile initState (wrap [exprInvert (exprOr (sEq fName "John") (sEq fName "Jane"))]) =
      .ok (("!(q1);!(q2)",
        [("-q1", "Name"), ("-q1.value", "==Jane"),
         ("-q2", "Name"), ("-q2.value", "==John")]),
        ⟨[("-q1", "Name"), ("-q1.value", "==Jane"),
          ("-q2", "Name"), ("-q2.value", "==John")], 2⟩) := rfl

example :
    compile initState
        (wrap [exprAnd (exprOr (sEq fName "John") (sEq fName "Jane")) (sEq fCity "NY")]) =
      .ok (("(q1,q2);(q3,q4)",
        [("-q1", "Name"), ("-q1.value", "==John"), ("-q2", "City"), ("-q2.value", "==NY"),
         ("-q3", "Name"), ("-q3.value", "==Jane"), ("-q4", "City"), ("-q4.value", "==NY")]),
        ⟨[("-q1", "Name"), ("-q1.value", "==John"), ("-q2", "City"), ("-q2.value", "==NY"),
          ("-q3", "Name"), ("-q3.value", "==Jane"), ("-q4", "City"), ("-q4.value", "==NY")], 4⟩) := rfl

example :
    compile initState
        (wrap [exprOr (exprAnd (sEq fName "A") (sNe fCity "B"))
          (exprAnd (sEq fName "C") (sNe fCity "B"))]) =
      .ok (("(q1);!(q2);(q3);!(q4)",
        [("-q1", "Name"), ("-q1.value", "==A"), ("-q2", "City"), ("-q2.value", "==B"),
         ("-q3", "Name"), ("-q3.value", "==C"), ("-q4", "City"), ("-q4.value", "==B")]),
        ⟨[("-q1", "Name"), ("-q1.value", "==A"), ("-q2", "City"), ("-q2.value", "==B"),
          ("-q3", "Name"), ("-q3.value", "==C"), ("-q4", "City"), ("-q4.value", "==B")], 4⟩) := rfl

example :
    compile initState (wrap [sNe fName "A", sNe fName "B"]) =
      .ok (("!(q1);!(q2)",
        [("-q1", "Name"), ("-q1.value", "==A"), ("-q2", "Name"), ("-q2.value", "==B")]),
        ⟨[("-q1", "Name"), ("-q1.value", "==A"),
          ("-q2", "Name"), ("-q2.value", "==B")], 2⟩) := rfl

example :
    compile initState
        (wrap [exprOr (exprAnd (exprAnd (sEq fName "A") (sNe fCity "B")) (exprInvert (iEq fAge 10)))
          (exprAnd (sEq fName "D") (sNe fCity "B"))]) =
      .ok (("(q1);!(q2);!(q3);(q4);!(q5)",
        [("-q1", "Name"), ("-q1.value", "==A"), ("-q2", "Age"), ("-q2.value", "=10"),
         ("-q3", "City"), ("-q3.value", "==B"), ("-q4", "Name"), ("-q4.value", "==D"),
         ("-q5", "City"), ("-q5.value", "==B")]),
        ⟨[("-q1", "Name"), ("-q1.value", "==A"), ("-q2", "Age"), ("-q2.value", "=10"),
          ("-q3", "City"), ("-q3.value", "==B"), ("-q4", "Name"), ("-q4.value", "==D"),
          ("-q5", "City"), ("-q5.value", "==B")], 5⟩) := rfl

example :
    compile initState
        (wrap [exprOr (sEq fName "A") (exprAnd (sEq fName "B") (sNe fCity "C"))]) =
      .ok (("(q1);!(q2);(q3)",
        [("-q1", "Name"), ("-q1.value", "==B"), ("-q2", "City"), ("-q2.value", "==C"),
         ("-q3", "Name"), ("-q3.value", "==A")]),
        ⟨[("-q1", "Name"), ("-q1.value", "==B"), ("-q2", "City"), ("-q2.value", "==C"),
          ("-q3", "Name"), ("-q3.value", "==A")], 3⟩) := rfl

example :
    compile initState
        (wrap [exprOr (exprAnd (sEq fName "A") (sNe fCity "B"))
          (exprAnd (sEq fName "C") (sNe fCity "D"))]) =
      .error .unrepresentable := rfl

example :
    compile initState
        (wrap [exprOr (exprOr (exprAnd (sEq fName "A") (sNe fCity "B")) (sEq fName "C"))
          (exprAnd (sEq fName "D") (sNe fCity "E"))]) =
      .error .unrepresentable := rfl

example :
    compile initState (wrap [exprOr (sHasWord fName "Manager") (sContains fName "Director")]) =
      .ok (("(q1);(q2)",
        [("-q1", "Name"), ("-q1.value", "=Manager"),
         ("-q2", "Name"), ("-q2.value", "*Director*")]),
        ⟨[("-q1", "Name"), ("-q1.value", "=Manager"),
          ("-q2", "Name"), ("-q2.value", "*Director*")], 2⟩) := rfl

end Lariat

namespace Lariat

/-! ## Claim C1 — the group processor's partition of literals -/

/-- C1 (code bug): the partition does *not* extend to a DNF branch that
consists of nothing but a single negated literal.  On the failing input
`~(Person.city == "B")` (the same branch shape arises inside
`A | ~(Person.city == "B")`), the DNF is `OR[Q(lit, negated=True)]`, so
the branch is the bare negated singleton group itself; `compile` reads
the branch's children without consulting the branch's own `negated`
flag, so the negated Raw literal lands in the *positive* list (an empty
negated set) and the emitted directive is the positive match `(q1)`
rather than the omit `!(q1)` the claim describes.  The third conjunct
shows the same literal handled as the claim states as soon as the branch
sits inside an AND group (the `Q(*filters)` wrapping every caller in the
repository applies). -/
theorem C1_bare_negated_branch_negation_dropped :
    processedGroups (sNe fCity "B") = .ok [⟨[rawInit fCity "==B"], []⟩] ∧
    compile initState (sNe fCity "B") =
      .ok (("(q1)", [("-q1", "City"), ("-q1.value", "==B")]),
        ⟨[("-q1", "City"), ("-q1.value", "==B")], 1⟩) ∧
    compile initState (wrap [sNe fCity "B"]) =
      .ok (("!(q1)", [("-q1", "City"), ("-q1.value", "==B")]),
        ⟨[("-q1", "City"), ("-q1.value", "==B")], 1⟩) :=
  ⟨rfl, rfl, rfl⟩

/-! ## Claim C3 — the shape of the directive string -/

/-- C3 counterexample: `(Person.name == "A") & ~(Person.city == "B")`
compiles successfully to the directive `"(q1);!(q2)"`, in which a `";"`
stands between the positive part `(q1)` and the omit term `!(q2)` of the
same branch — the claimed grammar (`branch := "(" id ("," id)* ")"
("!(" id ")")*`, `";"` only between branches) rejects this string, while
the part-level grammar the code actually emits accepts it. -/
theorem C3_counterexample_semicolon_before_omit :
    compile initState (wrap [exprAnd (sEq fName "A") (sNe fCity "B")]) =
      .ok (("(q1);!(q2)",
        [("-q1", "Name"), ("-q1.value", "==A"), ("-q2", "City"), ("-q2.value", "==B")]),
        ⟨[("-q1", "Name"), ("-q1.value", "==A"), ("-q2", "City"), ("-q2.value", "==B")], 2⟩) ∧
    matchesClaimedGrammar "(q1);!(q2)" = false ∧
    matchesEmittedGrammar "(q1);!(q2)" = true :=
  ⟨rfl, rfl, rfl⟩

/-! ## Claim C5 — construction-time versus compile-time errors -/

/-- C5 counterexample: `FindOpExpression.__init__` does not validate the
operator token, so constructing a comparison with the unsupported
operator `"zz"` succeeds, and the unsupported-operator error is raised
only by `compile` (in `add_param`); moreover a `RawFindExpression` — a
literal — is accepted as a comparison value at construction. -/
theorem C5_counterexample_operator_not_checked_at_construction :
    findOpInit fName "zz" (.str "v") = .ok (.lit (.fop fName "zz" (.str "v"))) ∧
    compile initState (wrap [.lit (.fop fName "zz" (.str "v"))]) =
      .error (.unsupportedOp "zz") ∧
    findOpInit fName "eq" (.litRaw fCity "==x") =
      .ok (.lit (.fop fName "eq" (.litRaw fCity "==x"))) :=
  ⟨rfl, rfl, rfl⟩

/-! ## Claim C6 — identifier numbering -/

/-- C6 counterexample: `compile` never resets `self.counter` (or
`self.params`) — only `__init__` does.  Compiling `Person.name == "A"`
twice on the same compiler instance numbers the second directive from
`q2`, not from `q1`, and the returned parameter dict still carries the
first compile's entries. -/
theorem C6_counterexample_counter_not_reset :
    compile initState (wrap [sEq fName "A"]) =
      .ok (("(q1)", [("-q1", "Name"), ("-q1.value", "==A")]),
        ⟨[("-q1", "Name"), ("-q1.value", "==A")], 1⟩) ∧
    compile ⟨[("-q1", "Name"), ("-q1.value", "==A")], 1⟩ (wrap [sEq fName "A"]) =
      .ok (("(q2)",
        [("-q1", "Name"), ("-q1.value", "==A"), ("-q2", "Name"), ("-q2.value", "==A")]),
        ⟨[("-q1", "Name"), ("-q1.value", "==A"), ("-q2", "Name"), ("-q2.value", "==A")], 2⟩) ∧
    ("(q2)" : String) ≠ "(q1)" :=
  ⟨rfl, rfl, by decide⟩

/-! ## Claim C9 — value escaping -/

/-- C9 counterexample: the `FindOpExpression` constructor runs
`escape_find_value` over the supplied string, so for the supplied value
`"a=b"` the leaf stores `"a\=b"` and compile emits `"=a\=b"` — not the
operator prefix applied to the caller's string unmodified. -/
theorem C9_counterexample_value_escaped :
    findOpInit fName "eq" (.str "a=b") = .ok (.lit (.fop fName "eq" (.str "a\\=b"))) ∧
    ("a\\=b" : String) ≠ "a=b" ∧
    compile initState (wrap [.lit (.fop fName "eq" (.str "a\\=b"))]) =
      .ok (("(q1)", [("-q1", "Name"), ("-q1.value", "=a\\=b")]),
        ⟨[("-q1", "Name"), ("-q1.value", "=a\\=b")], 1⟩) ∧
    ("=a\\=b" : String) ≠ "=a=b" :=
  ⟨rfl, by decide, rfl, by decide⟩

end Lariat

namespace Lariat

/-! ## Properties of the stable sort -/

section SortLemmas

variable {α : Type} {before : α → α → Bool}

/-- `sortedBy before l`: no element wants to precede an earlier one. -/
def sortedBy (before : α → α → Bool) (l : List α) : Prop :=
  l.Pairwise (fun a b => before b a = false)

theorem stableInsert_perm (x : α) (l : List α) :
    List.Perm (stableInsert before x l) (x :: l) := by
  induction l with
  | nil => exact List.Perm.refl _
  | cons y ys ih =>
    by_cases h : before x y
    · simp [stableInsert, h]
    · simp only [stableInsert, h, if_false, Bool.false_eq_true]
      exact ((ih.cons y).trans (List.Perm.swap x y ys))

theorem sortAux_perm (l acc : List α) :
    List.Perm (l.foldl (fun acc x => stableInsert before x acc) acc) (acc ++ l) := by
  induction l generalizing acc with
  | nil => simp
  | cons x xs ih =>
    simp only [List.foldl_cons]
    refine (ih (stableInsert before x acc)).trans ?_
    have h1 : List.Perm (stableInsert before x acc ++ xs) ((x :: acc) ++ xs) :=
      (stableInsert_perm x acc).append_right xs
    refine h1.trans ?_
    simpa using (@List.perm_middle _ x acc xs).symm

theorem stableSortBy_perm (l : List α) : List.Perm (stableSortBy before l) l := by
  simpa using @sortAux_perm _ before l []

theorem stableInsert_sorted
    (hasym : ∀ u v, before u v = true → before v u = false)
    (htrans : ∀ u v w, before u v = true → before v w = true → before u w = true)
    (x : α) {l : List α} (hl : sortedBy before l) :
    sortedBy before (stableInsert before x l) := by
  induction l with
  | nil => simp [sortedBy, stableInsert]
  | cons y ys ih =>
    rcases List.pairwise_cons.mp hl with ⟨hy, hys⟩
    by_cases h : before x y
    · simp only [stableInsert, h, if_true]
      refine List.pairwise_cons.mpr ⟨?_, hl⟩
      intro z hz
      rcases List.mem_cons.mp hz with rfl | hz
      · exact hasym _ _ h
      · by_contra hzx
        have hzx' : before z x = true := by
          revert hzx; cases before z x <;> simp
        have : before z y = true := htrans _ _ _ hzx' h
        rw [hy z hz] at this
        exact Bool.false_ne_true this
    · simp only [stableInsert, h, if_false, Bool.false_eq_true]
      refine List.pairwise_cons.mpr ⟨?_, ih hys⟩
      intro z hz
      have hz' := (stableInsert_perm x ys).mem_iff.mp hz
      rcases List.mem_cons.mp hz' with rfl | hz'
      · revert h; cases before z y <;> simp
      · exact hy z hz'

theorem sortAux_sorted
    (hasym : ∀ u v, before u v = true → before v u = false)
    (htrans : ∀ u v w, before u v = true → before v w = true → before u w = true)
    (l : List α) {acc : List α} (hacc : sortedBy before acc) :
    sortedBy before (l.foldl (fun acc x => stableInsert before x acc) acc) := by
  induction l generalizing acc with
  | nil => exact hacc
  | cons x xs ih => exact ih (stableInsert_sorted hasym htrans x hacc)

theorem stableSortBy_sorted
    (hasym : ∀ u v, before u v = true → before v u = false)
    (htrans : ∀ u v w, before u v = true → before v w = true → before u w = true)
    (l : List α) : sortedBy before (stableSortBy before l) :=
  sortAux_sorted hasym htrans l (by simp [sortedBy])

/-- Filter-stability of the insertion: an element satisfying `p` is
appended after every `p`-element of a sorted accumulator, provided
`p`-elements never want to precede each other and `before` is negatively
transitive. -/
theorem filter_stableInsert (p : α → Bool)
    (hptie : ∀ u v, p u = true → p v = true → before u v = false)
    (hnegtrans : ∀ x y z, before x y = true → before z y = false → before x z = true)
    (x : α) {l : List α} (hl : sortedBy before l) :
    (stableInsert before x l).filter p =
      if p x then l.filter p ++ [x] else l.filter p := by
  induction l with
  | nil => by_cases hx : p x <;> simp [stableInsert, List.filter, hx]
  | cons y ys ih =>
    rcases List.pairwise_cons.mp hl with ⟨hy, hys⟩
    by_cases h : before x y
    · -- x inserted in front of y: no later element can satisfy p if x does
      simp only [stableInsert, h, if_true]
      by_cases hx : p x
      · -- then p y and p z for z ∈ ys are all false
        have hpy : p y = false := by
          by_contra hpy
          have hpy' : p y = true := by revert hpy; cases p y <;> simp
          have := hptie x y hx hpy'
          rw [this] at h; exact Bool.false_ne_true h
        have hpz : ∀ z ∈ ys, p z = false := by
          intro z hz
          by_contra hpz
          have hpz' : p z = true := by revert hpz; cases p z <;> simp
          have hxz : before x z = true := hnegtrans x y z h (hy z hz)
          have := hptie x z hx hpz'
          rw [this] at hxz; exact Bool.false_ne_true hxz
        have hnil : List.filter p (y :: ys) = [] := by
          refine List.filter_eq_nil_iff.mpr ?_
          intro z hz
          rcases List.mem_cons.mp hz with rfl | hz
          · simp [hpy]
          · simp [hpz z hz]
        simp [List.filter_cons, hx, hnil]
      · simp [List.filter, hx]
    · simp only [stableInsert, h, if_false, Bool.false_eq_true]
      by_cases hy' : p y
      · by_cases hx : p x <;> simp [List.filter, hy', ih hys, hx]
      · by_cases hx : p x <;> simp [List.filter, hy', ih hys, hx]

theorem filter_sortAux (p : α → Bool)
    (hasym : ∀ u v, before u v = true → before v u = false)
    (htrans : ∀ u v w, before u v = true → before v w = true → before u w = true)
    (hptie : ∀ u v, p u = true → p v = true → before u v = false)
    (hnegtrans : ∀ x y z, before x y = true → before z y = false → before x z = true)
    (l : List α) {acc : List α} (hacc : sortedBy before acc) :
    (l.foldl (fun acc x => stableInsert before x acc) acc).filter p =
      acc.filter p ++ l.filter p := by
  induction l generalizing acc with
  | nil => simp
  | cons x xs ih =>
    simp only [List.foldl_cons]
    rw [ih (stableInsert_sorted hasym htrans x hacc)]
    rw [filter_stableInsert p hptie hnegtrans x hacc]
    by_cases hx : p x <;> simp [hx, List.filter]

/-- Stability of the sort: the sublist of elements satisfying a
predicate that ties under `before` is unchanged. -/
theorem filter_stableSortBy (p : α → Bool)
    (hasym : ∀ u v, before u v = true → before v u = false)
    (htrans : ∀ u v w, before u v = true → before v w = true → before u w = true)
    (hptie : ∀ u v, p u = true → p v = true → before u v = false)
    (hnegtrans : ∀ x y z, before x y = true → before z y = false → before x z = true)
    (l : List α) : (stableSortBy before l).filter p = l.filter p := by
  simpa using filter_sortAux p hasym htrans hptie hnegtrans l (by simp [sortedBy])

/-- Two sorted lists that are permutations of each other and whose
distinct elements are always comparable are equal. -/
theorem sorted_perm_eq :
    ∀ {l₁ l₂ : List α},
      (∀ a ∈ l₁, ∀ b ∈ l₁, a ≠ b → before a b = true ∨ before b a = true) →
      List.Perm l₁ l₂ → sortedBy before l₁ → sortedBy before l₂ → l₁ = l₂
  | [], l₂, _, hp, _, _ => by simpa using hp.nil_eq
  | x :: xs, [], _, hp, _, _ => by simpa using hp.symm.nil_eq
  | x :: xs, y :: ys, hcmp, hp, h₁, h₂ => by
    rcases List.pairwise_cons.mp h₁ with ⟨hx, hxs⟩
    rcases List.pairwise_cons.mp h₂ with ⟨hy, hys⟩
    by_cases hxy : x = y
    · subst hxy
      have htail : List.Perm xs ys := hp.cons_inv
      have : xs = ys :=
        sorted_perm_eq (fun a ha b hb => hcmp a (List.mem_cons_of_mem _ ha)
          b (List.mem_cons_of_mem _ hb)) htail hxs hys
      rw [this]
    · exfalso
      have hyx : y ∈ x :: xs := hp.mem_iff.mpr (List.mem_cons_self y ys)
      have hxy' : x ∈ y :: ys := hp.mem_iff.mp (List.mem_cons_self x xs)
      rcases List.mem_cons.mp hyx with rfl | hyx
      · exact hxy rfl
      rcases List.mem_cons.mp hxy' with heq | hxy'
      · exact hxy heq
      have h1 : before y x = false := hx y hyx
      have h2 : before x y = false := hy x hxy'
      rcases hcmp x (List.mem_cons_self x xs) y (List.mem_cons_of_mem _ hyx) hxy with h | h
      · rw [h2] at h; exact Bool.false_ne_true h
      · rw [h1] at h; exact Bool.false_ne_true h

end SortLemmas

end Lariat

namespace Lariat

/-! ## Characterizing the emitter by explicit sequential identifiers -/

theorem add_param_spec {st : CState} {qIds : List String} {e : Expr}
    {st' : CState} {qIds' : List String}
    (h : add_param st qIds e = .ok (st', qIds')) :
    st'.counter = st.counter + 1 ∧
      qIds' = qIds ++ ["q" ++ Nat.repr (st.counter + 1)] := by
  cases e with
  | lit l =>
    cases l with
    | fop lhs op rhs =>
      simp only [add_param, getId] at h
      cases hl : op_map.lookup op with
      | some pat =>
        rw [hl] at h
        simp only [Except.ok.injEq, Prod.mk.injEq] at h
        exact ⟨by rw [← h.1], by rw [← h.2]; rfl⟩
      | none => rw [hl] at h; cases h
    | raw f qr =>
      simp only [add_param, getId] at h
      simp only [Except.ok.injEq, Prod.mk.injEq] at h
      exact ⟨by rw [← h.1], by rw [← h.2]; rfl⟩
  | q c n ch =>
    simp only [add_param, getId] at h
    simp only [Except.ok.injEq, Prod.mk.injEq] at h
    exact ⟨by rw [← h.1], by rw [← h.2]; rfl⟩

theorem idsFrom_succ (c k : Nat) :
    idsFrom c (k + 1) = ("q" ++ Nat.repr (c + 1)) :: idsFrom (c + 1) k := by
  unfold idsFrom
  rw [List.range_succ_eq_map]
  simp only [List.map_cons, List.map_map]
  refine congrArg₂ List.cons (by simp) ?_
  exact List.map_congr_left (fun i _ => by simp only [Function.comp_apply]; congr 2; omega)

theorem addParams_fold_spec :
    ∀ (exprs : List Expr) (st : CState) (qIds : List String) {st' : CState}
      {qIds' : List String},
      exprs.foldlM (fun acc e => add_param acc.1 acc.2 e) (st, qIds) = .ok (st', qIds') →
      st'.counter = st.counter + exprs.length ∧
        qIds' = qIds ++ idsFrom st.counter exprs.length
  | [], st, qIds, st', qIds', h => by
    simp only [List.foldlM_nil, pure, Except.pure, Except.ok.injEq, Prod.mk.injEq] at h
    refine ⟨by rw [← h.1]; simp, by rw [← h.2]; simp [idsFrom]⟩
  | e :: rest, st, qIds, st', qIds', h => by
    rw [List.foldlM_cons] at h
    cases h1 : add_param st qIds e with
    | error err => rw [h1] at h; cases h
    | ok p =>
      rw [h1] at h
      obtain ⟨hc1, hq1⟩ := add_param_spec h1
      have ih := addParams_fold_spec rest p.1 p.2 (by simpa using h)
      refine ⟨?_, ?_⟩
      · rw [ih.1, hc1, List.length_cons]; omega
      · rw [ih.2, hq1, hc1, List.length_cons, idsFrom_succ, List.append_assoc]
        rfl

theorem addParams_spec {st : CState} {exprs : List Expr} {st' : CState}
    {ids : List String} (h : addParams st exprs = .ok (st', ids)) :
    st'.counter = st.counter + exprs.length ∧ ids = idsFrom st.counter exprs.length := by
  have := addParams_fold_spec exprs st [] h
  simpa using this

end Lariat

namespace Lariat

theorem emitGroup_spec {st : CState} {g : PGroup} {st' : CState}
    {parts : List String} (h : emitGroup st g = .ok (st', parts)) :
    st'.counter = st.counter + groupEmitCount g ∧ parts = groupPartsAt st.counter g := by
  simp only [emitGroup, bind, Except.bind] at h
  cases h1 : addParams st g.pos with
  | error e => rw [h1] at h; cases h
  | ok p =>
    obtain ⟨st1, posIds⟩ := p
    rw [h1] at h
    dsimp only at h
    cases h2 : addParams st1 (sortNegByRepr g.neg) with
    | error e => rw [h2] at h; cases h
    | ok q =>
      obtain ⟨st2, negIds⟩ := q
      rw [h2] at h
      simp only [Except.ok.injEq, Prod.mk.injEq] at h
      obtain ⟨hs, hp⟩ := h
      obtain ⟨hc1, hi1⟩ := addParams_spec h1
      obtain ⟨hc2, hi2⟩ := addParams_spec h2
      subst hs
      constructor
      · rw [hc2, hc1, groupEmitCount]; omega
      · rw [← hp, hi1, hi2, hc1, groupPartsAt]

theorem emitFold_spec :
    ∀ (gs : List PGroup) (st : CState) (qids : List String) {st' : CState}
      {qids' : List String},
      gs.foldlM emitStep (st, qids) = .ok (st', qids') →
      st'.counter = st.counter + totalEmitCount gs ∧
        qids' = qids ++ queryIdsAt st.counter gs
  | [], st, qids, st', qids', h => by
    simp only [List.foldlM_nil, pure, Except.pure, Except.ok.injEq, Prod.mk.injEq] at h
    refine ⟨by rw [← h.1]; simp [totalEmitCount], by rw [← h.2]; simp [queryIdsAt]⟩
  | g :: gs, st, qids, st', qids', h => by
    rw [List.foldlM_cons] at h
    cases h1 : emitStep (st, qids) g with
    | error e => rw [h1] at h; cases h
    | ok p =>
      rw [h1] at h
      simp only [emitStep, bind, Except.bind] at h1
      revert h1
      cases h2 : emitGroup st g with
      | error e => intro h1; cases h1
      | ok q =>
        obtain ⟨st1, parts⟩ := q
        intro h1
        simp only [Except.ok.injEq] at h1
        obtain ⟨hc1, hp1⟩ := emitGroup_spec h2
        have ih := emitFold_spec gs p.1 p.2 (by simpa using h)
        rw [← h1] at ih
        dsimp only at ih
        refine ⟨?_, ?_⟩
        · rw [ih.1, hc1]
          simp only [totalEmitCount, List.map_cons, List.sum_cons]
          omega
        · rw [ih.2, hc1, hp1]
          simp only [queryIdsAt, List.append_assoc]

theorem emitGroups_spec {st : CState} {gs : List PGroup} {dir : String}
    {st' : CState} (h : emitGroups st gs = .ok (dir, st')) :
    st'.counter = st.counter + totalEmitCount gs ∧ dir = directiveFor st.counter gs := by
  simp only [emitGroups, bind, Except.bind] at h
  cases h1 : gs.foldlM emitStep (st, ([] : List String)) with
  | error e => rw [h1] at h; cases h
  | ok p =>
    obtain ⟨st1, qids⟩ := p
    rw [h1] at h
    simp only [Except.ok.injEq, Prod.mk.injEq] at h
    obtain ⟨hc, hq⟩ := emitFold_spec gs st [] h1
    refine ⟨by rw [← h.2, hc], ?_⟩
    rw [← h.1, hq, directiveFor]
    simp

end Lariat

namespace Lariat

/-! ## Claim C6 — identifier assignment (amended) -/

/-- C6 (amended): within one compile, identifiers are drawn from the
single instance counter in emission order with no gaps or repeats — the
emitter leaves the counter advanced by exactly the number of emitted
literals and produces the directive whose identifiers are the
consecutive `q(c+1), q(c+2), ...` starting at the counter's value `c` on
entry (`directiveFor`/`idsFrom` spell the consecutive numbering out).
The counter is set to `0` by `__init__`, and `compile` does **not**
reset it — a second compile on the same instance continues numbering
where the first stopped (see the counterexample theorem). -/
theorem C6_sequential_ids_from_instance_counter :
    (∀ (st : CState) (gs : List PGroup) (dir : String) (st' : CState),
      emitGroups st gs = .ok (dir, st') →
      st'.counter = st.counter + totalEmitCount gs ∧
        dir = directiveFor st.counter gs) ∧
    initState.counter = 0 :=
  ⟨fun _ _ _ _ h => emitGroups_spec h, rfl⟩

/-- Witness for `C6_sequential_ids_from_instance_counter`: a concrete
emission from counter value 5 uses the identifiers `q6` and `q7`. -/
theorem C6_sequential_ids_witness :
    (⟨[("-q6", "Name"), ("-q6.value", "==A"), ("-q7", "Name"), ("-q7.value", "==B")],
        7⟩ : CState).counter =
      (⟨[], 5⟩ : CState).counter +
        totalEmitCount [⟨[sEq fName "A"], [sEq fName "B"]⟩] ∧
    "(q6);!(q7)" =
      directiveFor (⟨[], 5⟩ : CState).counter [⟨[sEq fName "A"], [sEq fName "B"]⟩] :=
  C6_sequential_ids_from_instance_counter.1 ⟨[], 5⟩
    [⟨[sEq fName "A"], [sEq fName "B"]⟩] "(q6);!(q7)"
    ⟨[("-q6", "Name"), ("-q6.value", "==A"), ("-q7", "Name"), ("-q7.value", "==B")], 7⟩
    rfl

end Lariat

namespace Lariat

/-! ## Claim C3 (amended) — the emitted directive grammar -/

theorem digitChar_alnum (m : Nat) (h : m < 10) :
    isIdChar (Nat.digitChar m) = true := by
  interval_cases m <;> decide

theorem toDigitsCore_chars :
    ∀ (f n : Nat) (ds : List Char), (∀ c ∈ ds, isIdChar c = true) →
      ∀ c ∈ Nat.toDigitsCore 10 f n ds, isIdChar c = true := by
  intro f
  induction f with
  | zero => intro n ds hds c hc; exact hds c hc
  | succ f ih =>
    intro n ds hds c hc
    rw [Nat.toDigitsCore] at hc
    by_cases h : n / 10 = 0
    · rw [if_pos h] at hc
      rcases List.mem_cons.mp hc with rfl | hc
      · exact digitChar_alnum _ (Nat.mod_lt _ (by omega))
      · exact hds c hc
    · rw [if_neg h] at hc
      refine ih (n / 10) _ ?_ c hc
      intro d hd
      rcases List.mem_cons.mp hd with rfl | hd
      · exact digitChar_alnum _ (Nat.mod_lt _ (by omega))
      · exact hds d hd

theorem repr_chars_alnum (n : Nat) : ∀ c ∈ (Nat.repr n).data, isIdChar c = true := by
  intro c hc
  have : (Nat.repr n).data = Nat.toDigitsCore 10 (n + 1) n [] := rfl
  rw [this] at hc
  exact toDigitsCore_chars (n + 1) n [] (by intro d hd; cases hd) c hc

/-- The identifiers `q{n}` are nonempty alphanumeric strings. -/
theorem qid_ok (n : Nat) :
    ("q" ++ Nat.repr n).data ≠ [] ∧ ∀ c ∈ ("q" ++ Nat.repr n).data, isIdChar c = true := by
  rw [String.data_append]
  constructor
  · simp
  · intro c hc
    rcases List.mem_append.mp hc with hc | hc
    · have : c = 'q' := by simpa using hc
      subst this
      decide
    · exact repr_chars_alnum n c hc

theorem prun_append (a b : List Char) : ∀ st,
    prun st (a ++ b) =
      match prun st a with
      | some st' => prun st' b
      | none => none := by
  induction a with
  | nil => intro st; rfl
  | cons c a ih =>
    intro st
    simp only [List.cons_append, prun]
    cases h : pstep st c with
    | some st' => simp only [h]; exact ih st'
    | none => simp only [h]

theorem prun_idchars_posRest {cs : List Char} (h : ∀ c ∈ cs, isIdChar c = true) :
    prun .posRest cs = some .posRest := by
  induction cs with
  | nil => rfl
  | cons c rest ih =>
    rw [prun, pstep]
    rw [h c (List.mem_cons_self c rest)]
    simp only [if_true]
    exact ih (fun d hd => h d (List.mem_cons_of_mem c hd))

theorem prun_id_posFirst {cs : List Char} (hne : cs ≠ [])
    (h : ∀ c ∈ cs, isIdChar c = true) :
    prun .posFirst cs = some .posRest := by
  cases cs with
  | nil => exact absurd rfl hne
  | cons c rest =>
    rw [prun, pstep]
    rw [h c (List.mem_cons_self c rest)]
    simp only [if_true]
    exact prun_idchars_posRest (fun d hd => h d (List.mem_cons_of_mem c hd))

theorem prun_idchars_omitRest {cs : List Char} (h : ∀ c ∈ cs, isIdChar c = true) :
    prun .omitRest cs = some .omitRest := by
  induction cs with
  | nil => rfl
  | cons c rest ih =>
    rw [prun, pstep]
    rw [h c (List.mem_cons_self c rest)]
    simp only [if_true]
    exact ih (fun d hd => h d (List.mem_cons_of_mem c hd))

theorem prun_id_omitFirst {cs : List Char} (hne : cs ≠ [])
    (h : ∀ c ∈ cs, isIdChar c = true) :
    prun .omitFirst cs = some .omitRest := by
  cases cs with
  | nil => exact absurd rfl hne
  | cons c rest =>
    rw [prun, pstep]
    rw [h c (List.mem_cons_self c rest)]
    simp only [if_true]
    exact prun_idchars_omitRest (fun d hd => h d (List.mem_cons_of_mem c hd))

theorem string_ext {a b : String} (h : a.data = b.data) : a = b := by
  cases a; cases b; exact congrArg String.mk h

theorem intercalate_go_append (sep : String) :
    ∀ (as : List String) (x y : String),
      String.intercalate.go (x ++ y) sep as = x ++ String.intercalate.go y sep as := by
  intro as
  induction as with
  | nil => intro x y; rfl
  | cons c cs ih =>
    intro x y
    show String.intercalate.go (x ++ y ++ sep ++ c) sep cs =
      x ++ String.intercalate.go (y ++ sep ++ c) sep cs
    rw [String.append_assoc x y sep, String.append_assoc x (y ++ sep) c]
    exact ih x (y ++ sep ++ c)

theorem intercalate_cons₂ (sep a b : String) (l : List String) :
    String.intercalate sep (a :: b :: l) =
      a ++ sep ++ String.intercalate sep (b :: l) := by
  show String.intercalate.go a sep (b :: l) = _
  show String.intercalate.go (a ++ sep ++ b) sep l = _
  rw [intercalate_go_append sep l (a ++ sep) b]
  rfl

/-- Running the automaton from inside a positive list over a
comma-joined nonempty list of well-formed identifiers. -/
theorem prun_ids (ids : List String) (hne : ids ≠ [])
    (hids : ∀ id ∈ ids, id.data ≠ [] ∧ ∀ c ∈ id.data, isIdChar c = true) :
    prun .posFirst (String.intercalate "," ids).data = some .posRest := by
  induction ids with
  | nil => exact absurd rfl hne
  | cons a rest ih =>
    cases rest with
    | nil =>
      obtain ⟨h1, h2⟩ := hids a (List.mem_cons_self a [])
      exact prun_id_posFirst h1 h2
    | cons b l =>
      rw [intercalate_cons₂]
      rw [String.data_append, String.data_append]
      rw [List.append_assoc]
      rw [prun_append]
      obtain ⟨h1, h2⟩ := hids a (List.mem_cons_self a (b :: l))
      rw [prun_id_posFirst h1 h2]
      show prun .posFirst (String.intercalate "," (b :: l)).data = some .posRest
      exact ih (by simp) (fun id hid => hids id (List.mem_cons_of_mem a hid))

/-- A parenthesized positive part is accepted from the part-start
state. -/
theorem prun_pos_part (ids : List String) (hne : ids ≠ [])
    (hids : ∀ id ∈ ids, id.data ≠ [] ∧ ∀ c ∈ id.data, isIdChar c = true) :
    prun .expectOpen ("(" ++ String.intercalate "," ids ++ ")").data = some .afterGroup := by
  rw [String.data_append, String.data_append]
  rw [List.append_assoc]
  rw [show ("(" : String).data = ['('] from rfl]
  simp only [List.cons_append, List.nil_append]
  rw [show prun .expectOpen ('(' :: ((String.intercalate "," ids).data ++ (")" : String).data)) =
    prun .posFirst ((String.intercalate "," ids).data ++ (")" : String).data) from rfl]
  rw [prun_append]
  rw [prun_ids ids hne hids]
  rfl

/-- An omit part `!(id)` is accepted from the part-start state. -/
theorem prun_omit_part (id : String) (hne : id.data ≠ [])
    (hid : ∀ c ∈ id.data, isIdChar c = true) :
    prun .expectOpen ("!(" ++ id ++ ")").data = some .afterGroup := by
  rw [String.data_append, String.data_append]
  rw [show ("!(" : String).data = ['!', '('] from rfl]
  rw [List.append_assoc]
  simp only [List.cons_append, List.nil_append]
  rw [show prun .expectOpen ('!' :: '(' :: (id.data ++ (")" : String).data)) =
    prun .omitFirst (id.data ++ (")" : String).data) from rfl]
  rw [prun_append]
  rw [prun_id_omitFirst hne hid]
  rfl

/-- Accepted parts stay accepted under `";"`-joining. -/
theorem prun_join_parts (parts : List String) (hne : parts ≠ [])
    (hparts : ∀ p ∈ parts, prun .expectOpen p.data = some .afterGroup) :
    prun .expectOpen (String.intercalate ";" parts).data = some .afterGroup := by
  induction parts with
  | nil => exact absurd rfl hne
  | cons a rest ih =>
    cases rest with
    | nil => exact hparts a (List.mem_cons_self a [])
    | cons b l =>
      rw [intercalate_cons₂]
      rw [String.data_append, String.data_append]
      rw [List.append_assoc]
      rw [prun_append]
      rw [hparts a (List.mem_cons_self a (b :: l))]
      dsimp only
      simp only [List.singleton_append]
      rw [show prun GState.afterGroup (';' :: (String.intercalate ";" (b :: l)).data) =
        prun GState.expectOpen (String.intercalate ";" (b :: l)).data from rfl]
      exact ih (by simp) (fun p hp => hparts p (List.mem_cons_of_mem a hp))

/-- Every id produced by `idsFrom` is well-formed. -/
theorem idsFrom_ok (c k : Nat) :
    ∀ id ∈ idsFrom c k, id.data ≠ [] ∧ ∀ ch ∈ id.data, isIdChar ch = true := by
  intro id hid
  unfold idsFrom at hid
  rcases List.mem_map.mp hid with ⟨i, _, rfl⟩
  exact qid_ok (c + i + 1)

/-- Every part a branch contributes is accepted by the part automaton. -/
theorem groupPartsAt_ok (c : Nat) (g : PGroup) :
    ∀ p ∈ groupPartsAt c g, prun .expectOpen p.data = some .afterGroup := by
  intro p hp
  unfold groupPartsAt at hp
  rcases List.mem_append.mp hp with hp | hp
  · by_cases hne : (idsFrom c g.pos.length).isEmpty
    · rw [if_pos hne] at hp; cases hp
    · rw [if_neg hne] at hp
      rcases List.mem_singleton.mp hp with rfl
      refine prun_pos_part _ ?_ (idsFrom_ok c g.pos.length)
      intro hcon
      rw [hcon] at hne
      exact hne rfl
  · rcases List.mem_map.mp hp with ⟨id, hid, rfl⟩
    obtain ⟨h1, h2⟩ := idsFrom_ok (c + g.pos.length) (sortNegByRepr g.neg).length id hid
    exact prun_omit_part id h1 h2

/-- Every `query_ids` entry is accepted. -/
theorem queryIdsAt_ok (gs : List PGroup) :
    ∀ c, ∀ e ∈ queryIdsAt c gs, prun .expectOpen e.data = some .afterGroup := by
  induction gs with
  | nil => intro c e he; cases he
  | cons g rest ih =>
    intro c e he
    unfold queryIdsAt at he
    rcases List.mem_append.mp he with he | he
    · by_cases hp : (groupPartsAt c g).isEmpty
      · rw [if_pos hp] at he; cases he
      · rw [if_neg hp] at he
        rcases List.mem_singleton.mp he with rfl
        refine prun_join_parts _ ?_ (groupPartsAt_ok c g)
        intro hcon
        rw [hcon] at hp
        exact hp rfl
    · exact ih (c + groupEmitCount g) e he

/-- C3 (amended): the directive emitted for any branch list — and hence
the directive of every successful compile — is empty or conforms to the
grammar `part (";" part)*` with `part := "(" id ("," id)* ")" |
"!(" id ")"`: a branch's positive part immediately precedes its omit
terms, and a `";"` stands between every two consecutive parts, including
between the positive part and the omit terms of one branch. -/
theorem C3_amended_directive_grammar :
    (∀ (c : Nat) (gs : List PGroup), matchesEmittedGrammar (directiveFor c gs) = true) ∧
    (∀ (st : CState) (gs : List PGroup) (dir : String) (st' : CState),
      emitGroups st gs = .ok (dir, st') → matchesEmittedGrammar dir = true) := by
  have main : ∀ (c : Nat) (gs : List PGroup),
      matchesEmittedGrammar (directiveFor c gs) = true := by
    intro c gs
    unfold directiveFor
    cases hq : queryIdsAt c gs with
    | nil => rfl
    | cons a rest =>
      unfold matchesEmittedGrammar
      have : prun .expectOpen (String.intercalate ";" (a :: rest)).data =
          some .afterGroup := by
        refine prun_join_parts _ (by simp) ?_
        intro p hp
        rw [← hq] at hp
        exact queryIdsAt_ok gs c p hp
      rw [this]
      simp
  refine ⟨main, ?_⟩
  intro st gs dir st' h
  obtain ⟨_, hdir⟩ := emitGroups_spec h
  rw [hdir]
  exact main st.counter gs

/-- Witness for `C3_amended_directive_grammar`: the directive of the
shared-negation snapshot test conforms to the emitted grammar. -/
theorem C3_amended_directive_grammar_witness :
    matchesEmittedGrammar (directiveFor 0
      [⟨[sEq fName "A"], [sEq fCity "B"]⟩, ⟨[sEq fName "C"], [sEq fCity "B"]⟩]) = true :=
  C3_amended_directive_grammar.1 0
    [⟨[sEq fName "A"], [sEq fCity "B"]⟩, ⟨[sEq fName "C"], [sEq fCity "B"]⟩]

end Lariat

namespace Lariat

/-! ## Claim C5 (amended) — construction checks versus compile checks -/

theorem op_map_lookup_none {op : String}
    (h : op ∉ (["eq", "cn", "bw", "ew", "gt", "gte", "lt", "lte"] : List String)) :
    op_map.lookup op = none := by
  simp only [List.mem_cons, not_or, List.not_mem_nil, not_false_iff, and_true] at h
  obtain ⟨h1, h2, h3, h4, h5, h6, h7, h8⟩ := h
  have e1 : (op == "eq") = false := beq_eq_false_iff_ne.mpr h1
  have e2 : (op == "cn") = false := beq_eq_false_iff_ne.mpr h2
  have e3 : (op == "bw") = false := beq_eq_false_iff_ne.mpr h3
  have e4 : (op == "ew") = false := beq_eq_false_iff_ne.mpr h4
  have e5 : (op == "gt") = false := beq_eq_false_iff_ne.mpr h5
  have e6 : (op == "gte") = false := beq_eq_false_iff_ne.mpr h6
  have e7 : (op == "lt") = false := beq_eq_false_iff_ne.mpr h7
  have e8 : (op == "lte") = false := beq_eq_false_iff_ne.mpr h8
  simp [op_map, List.lookup, e1, e2, e3, e4, e5, e6, e7, e8]

theorem processGroup_single_fop (f : Field) (op : String) (rhs : RVal)
    (hneq : op ≠ "neq") :
    processGroup (.q .and false [.lit (.fop f op rhs)]) =
      .ok ⟨[.lit (.fop f op rhs)], []⟩ := by
  simp only [processGroup, flatten, flattenChildren, isQ, List.foldlM, processChild,
    if_neg hneq, bind, Except.bind]
  rfl

theorem compile_unsupported_op (f : Field) (op : String) (rhs : RVal)
    (hop : op ∉ (["eq", "cn", "bw", "ew", "gt", "gte", "lt", "lte"] : List String))
    (hneq : op ≠ "neq") :
    compile initState (wrap [.lit (.fop f op rhs)]) = .error (.unsupportedOp op) := by
  have hg : processedGroups (wrap [.lit (.fop f op rhs)]) =
      .ok [⟨[.lit (.fop f op rhs)], []⟩] := by
    show (topGroups (to_dnf (wrap [.lit (.fop f op rhs)]))).mapM processGroup = _
    rw [show topGroups (to_dnf (wrap [.lit (.fop f op rhs)])) =
      [.q .and false [.lit (.fop f op rhs)]] from rfl]
    simp only [List.mapM_cons, List.mapM_nil, processGroup_single_fop f op rhs hneq,
      bind, Except.bind, pure, Except.pure]
  have ha : add_param initState [] (.lit (.fop f op rhs)) = .error (.unsupportedOp op) := by
    simp only [add_param, getId, op_map_lookup_none hop]
  have hb : addParams initState [.lit (.fop f op rhs)] = .error (.unsupportedOp op) := by
    simp only [addParams, List.foldlM, ha, bind, Except.bind]
  have hc : emitGroup initState ⟨[.lit (.fop f op rhs)], []⟩ =
      .error (.unsupportedOp op) := by
    simp only [emitGroup, bind, Except.bind, hb]
  have hd : emitGroups initState [⟨[.lit (.fop f op rhs)], []⟩] =
      .error (.unsupportedOp op) := by
    simp only [emitGroups, List.foldlM, emitStep, bind, Except.bind, hc]
  have hsort : sortGroupsDesc [⟨[.lit (.fop f op rhs)], []⟩] =
      [⟨[.lit (.fop f op rhs)], []⟩] := rfl
  simp only [compile, bind, Except.bind, hg, compileFromGroups, hsort, validateGroups, hd]

/-- C5 (amended): `FindOpExpression.__init__` immediately rejects a
value that is another comparison literal or a symbolic field reference,
but accepts a Raw literal value and any string operator token; a token
outside the supported operator set (other than `neq`, which the group
processor rewrites to `eq`) raises the unsupported-operator error only
at compile time, inside `add_param`. -/
theorem C5_amended_construction_checks :
    (∀ (f lhs' : Field) (op op' : String) (rhs' : RVal),
      findOpInit f op (.litFindOp lhs' op' rhs') = .error .chainedExpression) ∧
    (∀ (f g : Field) (op : String), findOpInit f op (.litSField g) = .error .twoFields) ∧
    (∀ (f : Field) (op s : String),
      findOpInit f op (.str s) = .ok (.lit (.fop f op (.str (escStr s))))) ∧
    (∀ (f : Field) (op : String) (n : Int),
      findOpInit f op (.int n) = .ok (.lit (.fop f op (.int n)))) ∧
    (∀ (f g : Field) (op qr : String),
      findOpInit f op (.litRaw g qr) = .ok (.lit (.fop f op (.litRaw g qr)))) ∧
    (∀ (f : Field) (op : String) (rhs : RVal),
      op ∉ (["eq", "cn", "bw", "ew", "gt", "gte", "lt", "lte"] : List String) →
      op ≠ "neq" →
      compile initState (wrap [.lit (.fop f op rhs)]) = .error (.unsupportedOp op)) :=
  ⟨fun _ _ _ _ _ => rfl, fun _ _ _ => rfl, fun _ _ _ => rfl, fun _ _ _ => rfl,
    fun _ _ _ _ => rfl, fun f op rhs hop hneq => compile_unsupported_op f op rhs hop hneq⟩

/-- Witness for `C5_amended_construction_checks`: the operator token
`"zz"` is accepted at construction and rejected by compile. -/
theorem C5_amended_construction_checks_witness :
    compile initState (wrap [.lit (.fop fName "zz" (.str "v"))]) =
      .error (.unsupportedOp "zz") :=
  C5_amended_construction_checks.2.2.2.2.2 fName "zz" (.str "v")
    (by decide) (by decide)

end Lariat

namespace Lariat

/-! ## Claim C9 (amended) — what string the emitter decorates -/

/-- C9 (amended): the emitter itself performs no escaping — for a
comparison literal it writes exactly the operator decoration
(`formatOp`) applied to the conversion of the *stored* value, and the
conversion is the identity on a stored string.  The stored string,
however, is not the caller's string: the constructor stores
`escape_find_value` of it. -/
theorem C9_amended_emit_decorates_stored_escaped_value :
    (∀ (f : Field) (op s : String),
      findOpInit f op (.str s) = .ok (.lit (.fop f op (.str (escStr s))))) ∧
    (∀ (st : CState) (qIds : List String) (f : Field) (op pat : String) (stored : RVal),
      op_map.lookup op = some pat →
      add_param st qIds (.lit (.fop f op stored)) =
        .ok (⟨dictInsert
              (dictInsert st.params ("-" ++ ("q" ++ toString (st.counter + 1))) f.name)
              ("-" ++ ("q" ++ toString (st.counter + 1)) ++ ".value")
              (formatOp pat (to_filemaker stored)),
            st.counter + 1⟩,
          qIds ++ ["q" ++ toString (st.counter + 1)])) ∧
    (∀ s : String, to_filemaker (.str s) = s) := by
  refine ⟨fun _ _ _ => rfl, ?_, fun _ => rfl⟩
  intro st qIds f op pat stored hpat
  simp only [add_param, getId, hpat]

/-- Witness for `C9_amended_emit_decorates_stored_escaped_value`: the
stored (escaped) value `"a\=b"` is emitted as `"=a\=b"` — decoration
only, no further change. -/
theorem C9_amended_emit_witness :
    add_param initState [] (.lit (.fop fName "eq" (.str "a\\=b"))) =
      .ok (⟨[("-q1", "Name"), ("-q1.value", "=a\\=b")], 1⟩, ["q1"]) :=
  (C9_amended_emit_decorates_stored_escaped_value.2.1 initState [] fName "eq" "="
    (.str "a\\=b") rfl).trans (by rfl)

end Lariat

namespace Lariat

/-! ## Claim C7 — branch emission order -/

theorem sortGroupsDesc_sorted (gs : List PGroup) :
    List.Pairwise (fun g h => h.neg.length ≤ g.neg.length) (sortGroupsDesc gs) := by
  have h := @stableSortBy_sorted _
    (fun g h => decide (h.neg.length < g.neg.length))
    (by intro u v h; simp only [decide_eq_true_eq] at h; simp; omega)
    (by intro u v w h1 h2; simp only [decide_eq_true_eq] at h1 h2; simp; omega)
    gs
  refine List.Pairwise.imp ?_ h
  intro a b hab
  simp only [decide_eq_false_iff_not, Nat.not_lt] at hab
  exact hab

theorem sortGroupsDesc_perm (gs : List PGroup) :
    List.Perm (sortGroupsDesc gs) gs :=
  stableSortBy_perm gs

theorem sortGroupsDesc_stable (gs : List PGroup) (k : Nat) :
    (sortGroupsDesc gs).filter (fun g => g.neg.length = k) =
      gs.filter (fun g => g.neg.length = k) := by
  refine filter_stableSortBy _
    (by intro u v h; simp only [decide_eq_true_eq] at h; simp; omega)
    (by intro u v w h1 h2; simp only [decide_eq_true_eq] at h1 h2; simp; omega)
    (by
      intro u v hu hv
      simp only [decide_eq_true_eq] at hu hv
      simp only [decide_eq_false_iff_not]
      omega)
    (by
      intro x y z h1 h2
      simp only [decide_eq_true_eq] at h1
      simp only [decide_eq_false_iff_not] at h2
      simp only [decide_eq_true_eq]
      omega)
    gs

/-- C7: the branches are emitted in descending order of negated-set
size (first conjunct), the emitted branch list is a permutation of the
processed list (second), ties are broken by discovery order — the
subsequence of branches of any fixed negated-set size is exactly the
subsequence in the processed (discovery) order (third) — and on the
concrete example `A | (B & !C)` the `(B & !C)` branch is emitted first,
reproducing the repository's `test_reordering_negation` snapshot
(fourth). -/
theorem C7_branches_sorted_by_neg_size_stable :
    (∀ gs : List PGroup,
      List.Pairwise (fun g h => h.neg.length ≤ g.neg.length) (sortGroupsDesc gs)) ∧
    (∀ gs : List PGroup, List.Perm (sortGroupsDesc gs) gs) ∧
    (∀ (gs : List PGroup) (k : Nat),
      (sortGroupsDesc gs).filter (fun g => g.neg.length = k) =
        gs.filter (fun g => g.neg.length = k)) ∧
    compile initState
        (wrap [exprOr (sEq fName "A") (exprAnd (sEq fName "B") (sNe fCity "C"))]) =
      .ok (("(q1);!(q2);(q3)",
        [("-q1", "Name"), ("-q1.value", "==B"), ("-q2", "City"), ("-q2.value", "==C"),
         ("-q3", "Name"), ("-q3.value", "==A")]),
        ⟨[("-q1", "Name"), ("-q1.value", "==B"), ("-q2", "City"), ("-q2.value", "==C"),
          ("-q3", "Name"), ("-q3.value", "==A")], 3⟩) :=
  ⟨sortGroupsDesc_sorted, sortGroupsDesc_perm, sortGroupsDesc_stable, rfl⟩

end Lariat

namespace Lariat

/-! ## Claim C10 — deterministic emission of the unordered negation set -/

theorem strLtChars_asym :
    ∀ {a b : List Char}, strLtChars a b = true → strLtChars b a = false
  | [], [], h => by cases h
  | [], _ :: _, _ => rfl
  | _ :: _, [], h => by cases h
  | a :: as, b :: bs, h => by
    rw [strLtChars] at h ⊢
    by_cases h1 : a.toNat < b.toNat
    · rw [if_neg (by omega), if_pos (by omega)]
    · rw [if_neg h1] at h
      by_cases h2 : b.toNat < a.toNat
      · rw [if_pos h2] at h; cases h
      · rw [if_neg h2] at h
        rw [if_neg (by omega), if_neg (by omega)]
        exact strLtChars_asym h

theorem strLtChars_trans :
    ∀ {a b c : List Char}, strLtChars a b = true → strLtChars b c = true →
      strLtChars a c = true
  | [], _, c :: cs, _, _ => rfl
  | [], b, [], h1, h2 => by
    cases b with
    | nil => cases h1
    | cons x xs => cases h2
  | _ :: _, [], _, h1, _ => by cases h1
  | _ :: _, _ :: _, [], _, h2 => by cases h2
  | a :: as, b :: bs, c :: cs, h1, h2 => by
    rw [strLtChars] at h1 h2 ⊢
    by_cases hab : a.toNat < b.toNat
    · by_cases hbc : b.toNat < c.toNat
      · rw [if_pos (by omega)]
      · rw [if_neg hbc] at h2
        by_cases hcb : c.toNat < b.toNat
        · rw [if_pos hcb] at h2; cases h2
        · rw [if_pos (by omega)]
    · rw [if_neg hab] at h1
      by_cases hba : b.toNat < a.toNat
      · rw [if_pos hba] at h1; cases h1
      · rw [if_neg hba] at h1
        by_cases hbc : b.toNat < c.toNat
        · rw [if_pos (by omega)]
        · rw [if_neg hbc] at h2
          by_cases hcb : c.toNat < b.toNat
          · rw [if_pos hcb] at h2; cases h2
          · rw [if_neg hcb] at h2
            rw [if_neg (by omega), if_neg (by omega)]
            exact strLtChars_trans h1 h2

theorem strLtChars_total :
    ∀ {a b : List Char}, strLtChars a b = false → strLtChars b a = false → a = b
  | [], [], _, _ => rfl
  | [], _ :: _, h, _ => by cases h
  | _ :: _, [], _, h => by cases h
  | a :: as, b :: bs, h1, h2 => by
    rw [strLtChars] at h1 h2
    by_cases hab : a.toNat < b.toNat
    · rw [if_pos hab] at h1; cases h1
    · rw [if_neg hab] at h1
      by_cases hba : b.toNat < a.toNat
      · rw [if_pos hba] at h2; cases h2
      · rw [if_neg hba] at h1
        rw [if_neg hba, if_neg hab] at h2
        have ht : a.toNat = b.toNat := by omega
        have hc : a = b := Char.eq_of_val_eq (UInt32.toNat.inj ht)
        rw [hc, strLtChars_total h1 h2]

theorem pyStrLt_total {a b : String} (h1 : pyStrLt a b = false)
    (h2 : pyStrLt b a = false) : a = b :=
  string_ext (strLtChars_total h1 h2)

theorem sortNegByRepr_perm (l : List Expr) : List.Perm (sortNegByRepr l) l :=
  stableSortBy_perm l

theorem sortNegByRepr_sorted (l : List Expr) :
    sortedBy (fun a b => pyStrLt (reprExpr a) (reprExpr b)) (sortNegByRepr l) :=
  @stableSortBy_sorted _ (fun a b => pyStrLt (reprExpr a) (reprExpr b))
    (fun _ _ h => strLtChars_asym h)
    (fun _ _ _ h1 h2 => strLtChars_trans h1 h2)
    l

/-- Sorting by `repr` hides the iteration order of the negation set:
any two orderings of the same literals sort identically, provided
distinct literals have distinct `repr` strings. -/
theorem sortNegByRepr_perm_invariant {l₁ l₂ : List Expr}
    (hperm : List.Perm l₁ l₂)
    (hinj : ∀ a ∈ l₁, ∀ b ∈ l₁, a ≠ b → reprExpr a ≠ reprExpr b) :
    sortNegByRepr l₁ = sortNegByRepr l₂ := by
  refine sorted_perm_eq ?_ ?_ (sortNegByRepr_sorted l₁) (sortNegByRepr_sorted l₂)
  · intro a ha b hb hab
    have ha' := (sortNegByRepr_perm l₁).mem_iff.mp ha
    have hb' := (sortNegByRepr_perm l₁).mem_iff.mp hb
    have hne := hinj a ha' b hb' hab
    by_cases h1 : pyStrLt (reprExpr a) (reprExpr b) = true
    · exact Or.inl h1
    · by_cases h2 : pyStrLt (reprExpr b) (reprExpr a) = true
      · exact Or.inr h2
      · exact absurd (pyStrLt_total (by revert h1; cases pyStrLt (reprExpr a) (reprExpr b) <;> simp)
          (by revert h2; cases pyStrLt (reprExpr b) (reprExpr a) <;> simp)) hne
  · exact (sortNegByRepr_perm l₁).trans (hperm.trans (sortNegByRepr_perm l₂).symm)

end Lariat

namespace Lariat

theorem forall₂_stableInsert {α : Type} {R : α → α → Prop} {bf : α → α → Bool}
    (hB : ∀ a a' c c', R a a' → R c c' → bf a c = bf a' c') :
    ∀ {x y : α} {l l' : List α}, R x y → List.Forall₂ R l l' →
      List.Forall₂ R (stableInsert bf x l) (stableInsert bf y l') := by
  intro x y l l' hxy hll
  induction hll with
  | nil => exact List.Forall₂.cons hxy List.Forall₂.nil
  | @cons a b l₁ l₂ hab htail ih =>
    show List.Forall₂ R (stableInsert bf x (a :: l₁)) (stableInsert bf y (b :: l₂))
    rw [stableInsert, stableInsert, ← hB _ _ _ _ hxy hab]
    by_cases h : bf x a
    · rw [if_pos h, if_pos h]
      exact List.Forall₂.cons hxy (List.Forall₂.cons hab htail)
    · rw [if_neg h, if_neg h]
      exact List.Forall₂.cons hab ih

theorem forall₂_stableSortBy {α : Type} {R : α → α → Prop} {bf : α → α → Bool}
    (hB : ∀ a a' c c', R a a' → R c c' → bf a c = bf a' c')
    {l l' : List α} (h : List.Forall₂ R l l') :
    List.Forall₂ R (stableSortBy bf l) (stableSortBy bf l') := by
  have haux : ∀ {la lb : List α}, List.Forall₂ R la lb →
      ∀ {acc acc' : List α}, List.Forall₂ R acc acc' →
        List.Forall₂ R (la.foldl (fun acc x => stableInsert bf x acc) acc)
          (lb.foldl (fun acc x => stableInsert bf x acc) acc') := by
    intro la lb hab
    induction hab with
    | nil => intro acc acc' hacc; exact hacc
    | @cons a b l₁ l₂ h1 h2 ih =>
      intro acc acc' hacc
      simp only [List.foldl_cons]
      exact ih (forall₂_stableInsert hB h1 hacc)
  exact haux h List.Forall₂.nil

end Lariat

namespace Lariat

theorem emitGroup_congr (st : CState) {g h : PGroup}
    (hgh : g.pos = h.pos ∧ List.Perm g.neg h.neg ∧
      (∀ a ∈ g.neg, ∀ b ∈ g.neg, a ≠ b → reprExpr a ≠ reprExpr b)) :
    emitGroup st g = emitGroup st h := by
  obtain ⟨hpos, hperm, hinj⟩ := hgh
  unfold emitGroup
  rw [hpos, sortNegByRepr_perm_invariant hperm hinj]

theorem validateGroups_congr :
    ∀ {gs₁ gs₂ : List PGroup},
      List.Forall₂ (fun g h => g.pos = h.pos ∧ List.Perm g.neg h.neg ∧
        (∀ a ∈ g.neg, ∀ b ∈ g.neg, a ≠ b → reprExpr a ≠ reprExpr b)) gs₁ gs₂ →
      validateGroups gs₁ = validateGroups gs₂
  | [], [], _ => rfl
  | [], _ :: _, hf => nomatch hf
  | _ :: _, [], hf => nomatch hf
  | [_], [_], _ => rfl
  | [_], _ :: _ :: _, hf => by
    cases hf with
    | cons _ htail => cases htail
  | _ :: _ :: _, [_], hf => by
    cases hf with
    | cons _ htail => cases htail
  | g₁ :: g₂ :: r₁, h₁ :: h₂ :: r₂, hf => by
    obtain _ | ⟨hgh₁, hf'⟩ := hf
    obtain _ | ⟨hgh₂, hf''⟩ := hf'
    have hiff : ((g₂.neg.all fun x => decide (x ∈ g₁.neg)) = true) ↔
        ((h₂.neg.all fun x => decide (x ∈ h₁.neg)) = true) := by
      rw [List.all_eq_true, List.all_eq_true]
      constructor
      · intro hall x hx
        have hx₂ : x ∈ g₂.neg := hgh₂.2.1.mem_iff.mpr hx
        have := hall x hx₂
        simp only [decide_eq_true_eq] at this ⊢
        exact hgh₁.2.1.mem_iff.mp this
      · intro hall x hx
        have hx₂ : x ∈ h₂.neg := hgh₂.2.1.mem_iff.mp hx
        have := hall x hx₂
        simp only [decide_eq_true_eq] at this ⊢
        exact hgh₁.2.1.mem_iff.mpr this
    have hcond : (g₂.neg.all fun x => decide (x ∈ g₁.neg)) =
        (h₂.neg.all fun x => decide (x ∈ h₁.neg)) := by
      cases hx : (g₂.neg.all fun x => decide (x ∈ g₁.neg)) <;>
        cases hy : (h₂.neg.all fun x => decide (x ∈ h₁.neg))
      · rfl
      · exact absurd (hiff.mpr hy) (by rw [hx]; simp)
      · exact absurd (hiff.mp hx) (by rw [hy]; simp)
      · rfl
    rw [validateGroups, validateGroups, hcond]
    by_cases hc : (h₂.neg.all fun x => decide (x ∈ h₁.neg)) = true
    · rw [if_pos hc, if_pos hc]
      exact validateGroups_congr (List.Forall₂.cons hgh₂ hf'')
    · rw [if_neg hc, if_neg hc]

theorem emitFold_congr :
    ∀ {gs₁ gs₂ : List PGroup},
      List.Forall₂ (fun g h => g.pos = h.pos ∧ List.Perm g.neg h.neg ∧
        (∀ a ∈ g.neg, ∀ b ∈ g.neg, a ≠ b → reprExpr a ≠ reprExpr b)) gs₁ gs₂ →
      ∀ acc : CState × List String,
        gs₁.foldlM emitStep acc = gs₂.foldlM emitStep acc := by
  intro gs₁ gs₂ hf
  induction hf with
  | nil => intro acc; rfl
  | @cons g h t₁ t₂ hgh htail ih =>
    intro acc
    rw [List.foldlM_cons, List.foldlM_cons]
    have hstep : emitStep acc g = emitStep acc h := by
      unfold emitStep
      rw [emitGroup_congr acc.1 hgh]
    rw [hstep]
    cases emitStep acc h with
    | error e => rfl
    | ok v =>
      simp only [bind, Except.bind]
      exact ih v

/-- The whole back half of compile — sorting, validation, emission — is
invariant under reordering each branch's negation set, provided distinct
negated literals have distinct `repr` strings. -/
theorem compileFromGroups_neg_order_invariant (st : CState) {gs₁ gs₂ : List PGroup}
    (hf : List.Forall₂ (fun g h => g.pos = h.pos ∧ List.Perm g.neg h.neg ∧
      (∀ a ∈ g.neg, ∀ b ∈ g.neg, a ≠ b → reprExpr a ≠ reprExpr b)) gs₁ gs₂) :
    compileFromGroups st gs₁ = compileFromGroups st gs₂ := by
  have hs := @forall₂_stableSortBy _ _
    (fun g h => decide (h.neg.length < g.neg.length))
    (by
      intro a a' c c' ha hc
      simp only [ha.2.1.length_eq, hc.2.1.length_eq])
    _ _ hf
  have hs' : List.Forall₂ (fun g h => g.pos = h.pos ∧ List.Perm g.neg h.neg ∧
      (∀ a ∈ g.neg, ∀ b ∈ g.neg, a ≠ b → reprExpr a ≠ reprExpr b))
      (sortGroupsDesc gs₁) (sortGroupsDesc gs₂) := hs
  have hv : validateGroups (sortGroupsDesc gs₁) = validateGroups (sortGroupsDesc gs₂) :=
    validateGroups_congr hs'
  have he : emitGroups st (sortGroupsDesc gs₁) = emitGroups st (sortGroupsDesc gs₂) := by
    unfold emitGroups
    rw [emitFold_congr hs' (st, ([] : List String))]
  simp only [compileFromGroups, bind, Except.bind, hv, he]

end Lariat

namespace Lariat

/-- C10 (amended): the emission is deterministic.  The back half of
compile is invariant under any reordering of each branch's negation set
(the only place Python set iteration order could show through), because
each negation set is emitted in ascending order of the literals' `repr`
strings: the second and third conjuncts state that the emitted negation
list is a permutation of the set sorted ascending by `repr`.  (The
`repr` key is a pure function of the literal, but it interpolates the
field's *class name* as well as the field name, operator/fragment and
value — see the counterexample.) -/
theorem C10_deterministic_emission :
    (∀ (st : CState) (gs₁ gs₂ : List PGroup),
      List.Forall₂ (fun g h => g.pos = h.pos ∧ List.Perm g.neg h.neg ∧
        (∀ a ∈ g.neg, ∀ b ∈ g.neg, a ≠ b → reprExpr a ≠ reprExpr b)) gs₁ gs₂ →
      compileFromGroups st gs₁ = compileFromGroups st gs₂) ∧
    (∀ l : List Expr, List.Perm (sortNegByRepr l) l) ∧
    (∀ l : List Expr,
      sortedBy (fun a b => pyStrLt (reprExpr a) (reprExpr b)) (sortNegByRepr l)) :=
  ⟨fun st _ _ hf => compileFromGroups_neg_order_invariant st hf,
    sortNegByRepr_perm, sortNegByRepr_sorted⟩

/-- Witness for `C10_deterministic_emission`: the two iteration orders
of the negation set `{City == "B", City == "C"}` compile identically. -/
theorem C10_deterministic_emission_witness :
    compileFromGroups initState [⟨[sEq fName "A"], [sEq fCity "B", sEq fCity "C"]⟩] =
      compileFromGroups initState [⟨[sEq fName "A"], [sEq fCity "C", sEq fCity "B"]⟩] :=
  C10_deterministic_emission.1 initState
    [⟨[sEq fName "A"], [sEq fCity "B", sEq fCity "C"]⟩]
    [⟨[sEq fName "A"], [sEq fCity "C", sEq fCity "B"]⟩]
    (List.Forall₂.cons
      ⟨rfl, List.Perm.swap (sEq fCity "C") (sEq fCity "B") [], by decide⟩
      List.Forall₂.nil)

/-- C10 counterexample (to the parenthetical only): the `repr` sort key
is *not* a pure function of field name, operator/fragment and value —
`Field.__repr__` interpolates the Python class name too, so two fields
with the same layout name but different field classes yield literals
with equal field name, fragment and value but different `repr`s. -/
theorem C10_counterexample_repr_uses_field_class :
    (Field.mk "IntField" "X").name = (Field.mk "StringField" "X").name ∧
    reprLit (.raw (Field.mk "IntField" "X") "==v") ≠
      reprLit (.raw (Field.mk "StringField" "X") "==v") :=
  ⟨rfl, by decide⟩

end Lariat

namespace Lariat

/-! ## Claim C2 — representability iff a subset-chain ordering exists -/

theorem validateGroups_ok_iff :
    ∀ gs : List PGroup, (validateGroups gs = .ok () ↔
      List.Chain' (fun g h => ∀ x ∈ h.neg, x ∈ g.neg) gs)
  | [] => by simp [validateGroups]
  | [g] => by simp [validateGroups]
  | g₁ :: g₂ :: rest => by
    rw [validateGroups]
    by_cases hc : (g₂.neg.all fun x => decide (x ∈ g₁.neg)) = true
    · rw [if_pos hc]
      rw [validateGroups_ok_iff (g₂ :: rest)]
      rw [List.chain'_cons]
      simp only [List.all_eq_true, decide_eq_true_eq] at hc
      exact ⟨fun h2 => ⟨hc, h2⟩, fun h2 => h2.2⟩
    · rw [if_neg hc]
      constructor
      · intro h; cases h
      · intro h
        exfalso
        rw [List.chain'_cons] at h
        apply hc
        simp only [List.all_eq_true, decide_eq_true_eq]
        exact fun x hx => h.1 x hx

theorem validateGroups_error_eq :
    ∀ {gs : List PGroup} {e : CErr}, validateGroups gs = .error e → e = .unrepresentable
  | [], _, h => nomatch h
  | [_], _, h => nomatch h
  | g₁ :: g₂ :: rest, e, h => by
    rw [validateGroups] at h
    by_cases hc : (g₂.neg.all fun x => decide (x ∈ g₁.neg)) = true
    · rw [if_pos hc] at h
      exact validateGroups_error_eq h
    · rw [if_neg hc] at h
      cases h
      rfl

theorem pairwise_mem_or {α : Type} {R : α → α → Prop} :
    ∀ {l : List α} {a b : α}, l.Pairwise R → a ∈ l → b ∈ l → a = b ∨ R a b ∨ R b a := by
  intro l
  induction l with
  | nil => intro a b _ ha _; cases ha
  | cons x xs ih =>
    intro a b hp ha hb
    rcases List.pairwise_cons.mp hp with ⟨hx, hxs⟩
    rcases List.mem_cons.mp ha with h1 | h1
    · rcases List.mem_cons.mp hb with h2 | h2
      · exact Or.inl (h1.trans h2.symm)
      · subst h1
        exact Or.inr (Or.inl (hx b h2))
    · rcases List.mem_cons.mp hb with h2 | h2
      · subst h2
        exact Or.inr (Or.inr (hx a h1))
      · exact ih hxs h1 h2

/-- The heart of claim C2: the single size-descending candidate order
passes the pairwise check exactly when *some* ordering of the branches
forms a subset chain. -/
theorem sorted_validate_iff_exists_perm (gs : List PGroup)
    (hnd : ∀ g ∈ gs, g.neg.Nodup) :
    validateGroups (sortGroupsDesc gs) = .ok () ↔
      ∃ gs', List.Perm gs gs' ∧
        List.Pairwise (fun g h => ∀ x ∈ h.neg, x ∈ g.neg) gs' := by
  constructor
  · intro hv
    refine ⟨sortGroupsDesc gs, (sortGroupsDesc_perm gs).symm, ?_⟩
    have hchain := (validateGroups_ok_iff _).mp hv
    haveI : IsTrans PGroup (fun g h => ∀ x ∈ h.neg, x ∈ g.neg) :=
      ⟨fun _ _ _ hab hbc x hx => hab x (hbc x hx)⟩
    exact List.chain'_iff_pairwise.mp hchain
  · rintro ⟨gs', hperm, hpw⟩
    rw [validateGroups_ok_iff]
    refine List.Pairwise.chain' ?_
    refine List.Pairwise.imp_of_mem ?_ (sortGroupsDesc_sorted gs)
    intro g h hg hh hlen
    have hg' : g ∈ gs := (sortGroupsDesc_perm gs).mem_iff.mp hg
    have hh' : h ∈ gs := (sortGroupsDesc_perm gs).mem_iff.mp hh
    have hgmem : g ∈ gs' := hperm.mem_iff.mp hg'
    have hhmem : h ∈ gs' := hperm.mem_iff.mp hh'
    rcases pairwise_mem_or hpw hgmem hhmem with rfl | hsup | hsup
    · exact fun x hx => hx
    · exact hsup
    · have hndg := hnd g hg'
      have hndh := hnd h hh'
      have hsub : g.neg.toFinset ⊆ h.neg.toFinset := by
        intro x hx
        rw [List.mem_toFinset] at hx ⊢
        exact hsup x hx
      have hcard : h.neg.toFinset.card ≤ g.neg.toFinset.card := by
        have e1 := List.toFinset_card_of_nodup hndg
        have e2 := List.toFinset_card_of_nodup hndh
        omega
      have heq := Finset.eq_of_subset_of_card_le hsub hcard
      intro x hx
      rw [← List.mem_toFinset, heq, List.mem_toFinset]
      exact hx

theorem processGroup_nodup {g : Expr} {pg : PGroup}
    (h : processGroup g = .ok pg) : pg.neg.Nodup := by
  simp only [processGroup, bind, Except.bind] at h
  split at h
  · cases h
  · simp only [Except.ok.injEq] at h
    rw [← h]
    exact List.nodup_dedup _

theorem mapM_processGroup_ok :
    ∀ {xs : List Expr} {ys : List PGroup}, xs.mapM processGroup = .ok ys →
      ∀ y ∈ ys, ∃ x, processGroup x = .ok y := by
  intro xs
  induction xs with
  | nil =>
    intro ys h y hy
    simp only [List.mapM_nil, pure, Except.pure, Except.ok.injEq] at h
    rw [← h] at hy
    cases hy
  | cons x xs ih =>
    intro ys h y hy
    rw [List.mapM_cons] at h
    cases hx : processGroup x with
    | error e => rw [hx] at h; cases h
    | ok pg =>
      rw [hx] at h
      cases hrest : xs.mapM processGroup with
      | error e =>
        rw [hrest] at h
        cases h
      | ok pgs =>
        rw [hrest] at h
        simp only [bind, Except.bind, pure, Except.pure, Except.ok.injEq] at h
        rw [← h] at hy
        rcases List.mem_cons.mp hy with rfl | hy
        · exact ⟨x, hx⟩
        · exact ih hrest y hy

theorem processedGroups_nodup {q : Expr} {gs : List PGroup}
    (h : processedGroups q = .ok gs) : ∀ g ∈ gs, g.neg.Nodup := by
  intro g hg
  obtain ⟨x, hx⟩ := mapM_processGroup_ok h g hg
  exact processGroup_nodup hx

theorem add_param_ne_unrepresentable (st : CState) (qIds : List String) (e : Expr) :
    add_param st qIds e ≠ .error .unrepresentable := by
  cases e with
  | lit l =>
    cases l with
    | fop lhs op rhs =>
      simp only [add_param, getId]
      cases hl : op_map.lookup op with
      | some pat => simp
      | none => simp
    | raw f qr => simp [add_param, getId]
  | q c n ch => simp [add_param, getId]

theorem addParams_fold_ne_unrepresentable :
    ∀ (exprs : List Expr) (acc : CState × List String),
      exprs.foldlM (fun acc e => add_param acc.1 acc.2 e) acc ≠
        .error .unrepresentable
  | [], acc => by simp [List.foldlM_nil, pure, Except.pure]
  | e :: rest, acc => by
    rw [List.foldlM_cons]
    cases h : add_param acc.1 acc.2 e with
    | error err =>
      simp only [bind, Except.bind]
      intro hcon
      cases hcon
      exact add_param_ne_unrepresentable acc.1 acc.2 e h
    | ok v =>
      simp only [bind, Except.bind]
      exact addParams_fold_ne_unrepresentable rest v

theorem emitGroup_ne_unrepresentable (st : CState) (g : PGroup) :
    emitGroup st g ≠ .error .unrepresentable := by
  simp only [emitGroup, bind, Except.bind]
  cases h1 : addParams st g.pos with
  | error e =>
    intro hcon
    cases hcon
    exact addParams_fold_ne_unrepresentable g.pos (st, []) h1
  | ok p =>
    dsimp only
    cases h2 : addParams p.1 (sortNegByRepr g.neg) with
    | error e =>
      dsimp only
      intro hcon
      cases hcon
      exact addParams_fold_ne_unrepresentable (sortNegByRepr g.neg) (p.1, []) h2
    | ok q =>
      dsimp only
      simp

theorem emitFold_ne_unrepresentable :
    ∀ (gs : List PGroup) (acc : CState × List String),
      gs.foldlM emitStep acc ≠ .error .unrepresentable
  | [], acc => by simp [List.foldlM_nil, pure, Except.pure]
  | g :: rest, acc => by
    rw [List.foldlM_cons]
    cases h : emitStep acc g with
    | error err =>
      simp only [bind, Except.bind]
      intro hcon
      cases hcon
      revert h
      simp only [emitStep, bind, Except.bind]
      cases h2 : emitGroup acc.1 g with
      | error e2 =>
        intro h
        cases h
        exact emitGroup_ne_unrepresentable acc.1 g h2
      | ok v => intro h; cases h
    | ok v =>
      simp only [bind, Except.bind]
      exact emitFold_ne_unrepresentable rest v

theorem emitGroups_ne_unrepresentable (st : CState) (gs : List PGroup) :
    emitGroups st gs ≠ .error .unrepresentable := by
  simp only [emitGroups, bind, Except.bind]
  cases h : gs.foldlM emitStep (st, ([] : List String)) with
  | error e =>
    intro hcon
    cases hcon
    exact emitFold_ne_unrepresentable gs (st, []) h
  | ok v => simp

theorem compileFromGroups_unrep_iff (st : CState) (gs : List PGroup) :
    compileFromGroups st gs = .error .unrepresentable ↔
      ¬ validateGroups (sortGroupsDesc gs) = .ok () := by
  simp only [compileFromGroups, bind, Except.bind]
  cases hv : validateGroups (sortGroupsDesc gs) with
  | error e =>
    have he := validateGroups_error_eq hv
    subst he
    simp
  | ok u =>
    cases u
    simp only [not_true_eq_false, iff_false]
    cases he : emitGroups st (sortGroupsDesc gs) with
    | error e =>
      intro hcon
      cases hcon
      exact emitGroups_ne_unrepresentable st (sortGroupsDesc gs) he
    | ok v => simp

end Lariat

namespace Lariat

/-- C2: `compile` returns the UnrepresentableQuery error iff no ordering of
the processed DNF branches makes every branch's negated-literal set a
superset of every later branch's negated-literal set; concretely,
`(A & ~B) | (C & ~D)` is rejected with that error while
`(A & ~B & ~C) | (D & ~B)` compiles successfully. -/
theorem C2_unrepresentable_iff_no_superset_chain :
    (∀ (st : CState) (q : Expr) (gs : List PGroup),
        processedGroups q = .ok gs →
        (compile st q = .error .unrepresentable ↔
          ¬ ∃ gs', List.Perm gs gs' ∧
            List.Pairwise (fun g h => ∀ x ∈ h.neg, x ∈ g.neg) gs')) ∧
    compile initState (wrap [exprOr (exprAnd (sEq fName "A") (sNe fCity "B"))
      (exprAnd (sEq fName "C") (sNe fCity "D"))]) = .error .unrepresentable ∧
    (compile initState (wrap [exprOr
        (exprAnd (exprAnd (sEq fName "A") (sNe fCity "B")) (sNe fCity "C"))
        (exprAnd (sEq fName "D") (sNe fCity "B"))])).isOk = true := by
  refine ⟨?_, by rfl, by rfl⟩
  intro st q gs hpg
  have hc : compile st q = compileFromGroups st gs := by
    simp only [compile, bind, Except.bind, hpg]
  rw [hc, compileFromGroups_unrep_iff,
    sorted_validate_iff_exists_perm gs (processedGroups_nodup hpg)]

/-- Witness for C2: the general equivalence applied at the concrete
unrepresentable input `(A & ~B) | (C & ~D)`. -/
theorem C2_unrepresentable_iff_no_superset_chain_witness :
    processedGroups (wrap [exprOr (exprAnd (sEq fName "A") (sNe fCity "B"))
        (exprAnd (sEq fName "C") (sNe fCity "D"))]) =
      .ok [⟨[rawInit fName "==A"], [rawInit fCity "==B"]⟩,
        ⟨[rawInit fName "==C"], [rawInit fCity "==D"]⟩] ∧
    (compile initState (wrap [exprOr (exprAnd (sEq fName "A") (sNe fCity "B"))
        (exprAnd (sEq fName "C") (sNe fCity "D"))]) = .error .unrepresentable ↔
      ¬ ∃ gs', List.Perm [⟨[rawInit fName "==A"], [rawInit fCity "==B"]⟩,
          (⟨[rawInit fName "==C"], [rawInit fCity "==D"]⟩ : PGroup)] gs' ∧
        List.Pairwise (fun g h => ∀ x ∈ h.neg, x ∈ g.neg) gs') :=
  ⟨rfl, C2_unrepresentable_iff_no_superset_chain.1 initState
    (wrap [exprOr (exprAnd (sEq fName "A") (sNe fCity "B"))
      (exprAnd (sEq fName "C") (sNe fCity "D"))])
    [⟨[rawInit fName "==A"], [rawInit fCity "==B"]⟩,
      ⟨[rawInit fName "==C"], [rawInit fCity "==D"]⟩] rfl⟩

end Lariat

namespace Lariat

/-! ## Claim C8 — distribution law -/

/-- If `distribute` completes within fuel `n` (in the sense of `distOk`),
any larger fuel computes the same result. -/
theorem distribute_fuel_agree :
    ∀ (n : Nat) (e : Expr), distOk n e = true → ∀ m, n ≤ m → distribute m e = distribute n e := by
  intro n
  induction n with
  | zero =>
    intro e h
    simp [distOk] at h
  | succ n ih =>
    intro e h m hm
    cases m with
    | zero => omega
    | succ m' =>
      have hm' : n ≤ m' := Nat.succ_le_succ_iff.mp hm
      cases e with
      | lit l => rfl
      | q c neg ch =>
        rw [distOk] at h
        rw [Bool.and_eq_true] at h
        obtain ⟨hA, hB⟩ := h
        rw [List.all_eq_true] at hA
        have hch : (ch.map fun child => if isQ child then distribute m' child else child) =
            (ch.map fun child => if isQ child then distribute n child else child) := by
          apply List.map_congr_left
          intro child hchild
          cases hq : isQ child with
          | false => simp [hq]
          | true =>
            simp only [hq, if_true]
            have ha := hA child hchild
            rw [hq] at ha
            simp only [if_pos] at ha
            exact ih child ha m' hm'
        rw [distribute, distribute]
        dsimp only
        rw [hch]
        by_cases hc : c = .and
        · simp only [if_pos hc]
          cases hf : findFirstOr (ch.map fun child => if isQ child then distribute n child else child) with
          | none => rfl
          | some triple =>
            obtain ⟨before, orChild, after⟩ := triple
            rw [if_pos hc, hf] at hB
            dsimp only at hB
            rw [List.all_eq_true] at hB
            dsimp only
            congr 1
            apply List.map_congr_left
            intro item hitem
            exact ih _ (hB item hitem) m' hm'
        · simp only [if_neg hc]

set_option maxRecDepth 8000 in
set_option maxHeartbeats 3200000 in
/-- C8: for all literals `a`, `b`, `c`, the expressions
`and(or(a, b), c)` and `or(and(a, c), and(b, c))` produce the same
processed branch set, and hence `compile` returns identical directive
strings and parameter mappings (or the identical error). -/
theorem C8_distribution_law (st : CState) (a b c : Lit) :
    processedGroups (wrap [exprAnd (exprOr (.lit a) (.lit b)) (.lit c)]) =
      processedGroups (wrap [exprOr (exprAnd (.lit a) (.lit c)) (exprAnd (.lit b) (.lit c))]) ∧
    compile st (wrap [exprAnd (exprOr (.lit a) (.lit b)) (.lit c)]) =
      compile st (wrap [exprOr (exprAnd (.lit a) (.lit c)) (exprAnd (.lit b) (.lit c))]) := by
  have hfL : distFuel (push_negations (wrap [exprAnd (exprOr (.lit a) (.lit b)) (.lit c)])) = 512 := rfl
  have hfR : distFuel (push_negations (wrap [exprOr (exprAnd (.lit a) (.lit c)) (exprAnd (.lit b) (.lit c))])) = 256 := rfl
  have hL := distribute_fuel_agree 12 (push_negations (wrap [exprAnd (exprOr (.lit a) (.lit b)) (.lit c)]))
    (by rfl) (distFuel (push_negations (wrap [exprAnd (exprOr (.lit a) (.lit b)) (.lit c)])))
    (by rw [hfL]; omega)
  have hR := distribute_fuel_agree 12 (push_negations (wrap [exprOr (exprAnd (.lit a) (.lit c)) (exprAnd (.lit b) (.lit c))]))
    (by rfl) (distFuel (push_negations (wrap [exprOr (exprAnd (.lit a) (.lit c)) (exprAnd (.lit b) (.lit c))])))
    (by rw [hfR]; omega)
  have hdnf : to_dnf (wrap [exprAnd (exprOr (.lit a) (.lit b)) (.lit c)]) =
      to_dnf (wrap [exprOr (exprAnd (.lit a) (.lit c)) (exprAnd (.lit b) (.lit c))]) := by
    show flatten (distribute (distFuel (push_negations (wrap [exprAnd (exprOr (.lit a) (.lit b)) (.lit c)]))) (push_negations (wrap [exprAnd (exprOr (.lit a) (.lit b)) (.lit c)]))) =
      flatten (distribute (distFuel (push_negations (wrap [exprOr (exprAnd (.lit a) (.lit c)) (exprAnd (.lit b) (.lit c))]))) (push_negations (wrap [exprOr (exprAnd (.lit a) (.lit c)) (exprAnd (.lit b) (.lit c))])))
    rw [hL, hR]
    rfl
  have hpg : processedGroups (wrap [exprAnd (exprOr (.lit a) (.lit b)) (.lit c)]) =
      processedGroups (wrap [exprOr (exprAnd (.lit a) (.lit c)) (exprAnd (.lit b) (.lit c))]) := by
    unfold processedGroups
    rw [hdnf]
  refine ⟨hpg, ?_⟩
  unfold compile
  rw [hpg]

end Lariat

namespace Lariat

theorem hget_append {h : Heap} {a : Nat} (t : Heap) (ha : a < h.length) :
    hget (h ++ t) a = hget h a := by
  simp [hget, List.getD, List.getElem?_append, ha]

theorem length_hset (h : Heap) (a : Nat) (v : QNode) : (hset h a v).length = h.length :=
  List.length_set h a v

theorem hget_hset_ne {h : Heap} {a i : Nat} (v : QNode) (hne : i ≠ a) :
    hget (hset h a v) i = hget h i := by
  simp [hget, hset, List.getD, List.getElem?_set, Ne.symm hne]

theorem hframe_refl (n : Nat) (h : Heap) : hframe n h h := ⟨le_refl _, fun _ _ => rfl⟩

theorem hframe_trans {n : Nat} {h₁ h₂ h₃ : Heap} (a : hframe n h₁ h₂) (b : hframe n h₂ h₃) :
    hframe n h₁ h₃ :=
  ⟨le_trans a.1 b.1, fun i hi => (b.2 i hi).trans (a.2 i hi)⟩

theorem hframe_mono {n n' : Nat} {h h' : Heap} (hle : n' ≤ n) (hf : hframe n h h') :
    hframe n' h h' := ⟨hf.1, fun i hi => hf.2 i (lt_of_lt_of_le hi hle)⟩

theorem halloc_frame (h : Heap) (v : QNode) (n : Nat) (hn : n ≤ h.length) :
    hframe n h (halloc h v).1 := by
  refine ⟨by simp [halloc], fun i hi => ?_⟩
  exact hget_append [v] (lt_of_lt_of_le hi hn)

theorem hset_frame (h : Heap) (a : Nat) (v : QNode) (n : Nat) (hn : n ≤ a) :
    hframe n h (hset h a v) := by
  refine ⟨le_of_eq (length_hset h a v).symm, fun i hi => ?_⟩
  exact hget_hset_ne v (Nat.ne_of_lt (lt_of_lt_of_le hi hn))

end Lariat

namespace Lariat

theorem closedBelowB_mem {n : Nat} {h : Heap} (hc : closedBelowB n h = true)
    {a : Nat} (ha : a < n) {c : HChild} (hm : c ∈ (hget h a).children) :
    childBelowB n c = true :=
  List.all_eq_true.mp (List.all_eq_true.mp hc a (List.mem_range.mpr ha)) c hm

theorem absO_agrees :
    ∀ (f : Nat) {n : Nat} {h h' : Heap},
      n ≤ h.length → closedBelowB n h = true → hframe n h h' →
      (∀ x, childBelowB n x = true → absO h' f x = absO h f x) ∧
      (∀ cs, (∀ c ∈ cs, childBelowB n c = true) → absList h' f cs = absList h f cs) := by
  intro f
  induction f with
  | zero =>
    intro n h h' _ _ _
    constructor
    · intro x _
      cases x with
      | hlit l => rfl
      | href a => rfl
    · intro cs _
      cases cs with
      | nil => rfl
      | cons c cs => rfl
  | succ f ih =>
    intro n h h' hn hc hf
    have IH := @ih n h h' hn hc hf
    constructor
    · intro x hx
      cases x with
      | hlit l => rfl
      | href a =>
        have ha : a < n := by simpa [childBelowB] using hx
        have hga : hget h' a = hget h a := hf.2 a ha
        have hkids : ∀ c ∈ (hget h a).children, childBelowB n c = true :=
          fun c hm => closedBelowB_mem hc ha hm
        simp only [absO]
        rw [hga, IH.2 (hget h a).children hkids]
    · intro cs hcs
      cases cs with
      | nil => rfl
      | cons c cs =>
        simp only [absList]
        rw [IH.1 c (hcs c (List.mem_cons_self c cs)),
          IH.2 cs (fun c₂ hm => hcs c₂ (List.mem_cons_of_mem c hm))]

end Lariat

namespace Lariat

theorem hget_append_last (h : Heap) (v : QNode) : hget (h ++ [v]) h.length = v := by
  simp [hget, List.getD, List.getElem?_append_right (le_refl h.length)]

theorem childInRegion_mono {n₀ n₁ l l' : Nat} {c : HChild} (hn : n₁ ≤ n₀) (hl : l ≤ l')
    (hc : childInRegion n₀ l c) : childInRegion n₁ l' c := by
  cases c with
  | hlit l => trivial
  | href a => exact ⟨le_trans hn hc.1, lt_of_lt_of_le hc.2 hl⟩

theorem regionClosed_extend {n₀ : Nat} {h h' : Heap}
    (hr : regionClosed n₀ h) (hf : hframe h.length h h')
    (hnew : ∀ a, h.length ≤ a → a < h'.length →
      ∀ c ∈ (hget h' a).children, childInRegion n₀ h'.length c) :
    regionClosed n₀ h' := by
  intro a ha₀ ha₁ c hm
  by_cases hlt : a < h.length
  · rw [hf.2 a hlt] at hm
    exact childInRegion_mono (le_refl _) hf.1 (hr a ha₀ hlt c hm)
  · exact hnew a (le_of_not_lt hlt) ha₁ c hm

theorem regionClosed_halloc {n₀ : Nat} {h : Heap} {v : QNode}
    (hn : n₀ ≤ h.length) (hr : regionClosed n₀ h)
    (hv : ∀ c ∈ v.children, childInRegion n₀ (h.length + 1) c) :
    regionClosed n₀ (halloc h v).1 := by
  refine regionClosed_extend hr (halloc_frame h v h.length (le_refl _)) ?_
  intro a ha₀ ha₁ c hm
  have hlen : (halloc h v).1.length = h.length + 1 := by simp [halloc]
  have ha : a = h.length := by omega
  subst ha
  rw [show (halloc h v).1 = h ++ [v] from rfl, hget_append_last] at hm
  rw [hlen]
  exact hv c hm

theorem regionClosed_hset {n₀ : Nat} {h : Heap} {a : Nat} {v : QNode}
    (hr : regionClosed n₀ h)
    (hv : ∀ c ∈ v.children, childInRegion n₀ h.length c) :
    regionClosed n₀ (hset h a v) := by
  intro i hi₀ hi₁ c hm
  rw [length_hset] at hi₁
  by_cases hia : i = a
  · subst hia
    have : hget (hset h i v) i = v := by
      simp [hget, hset, List.getD, List.getElem?_set_self, hi₁]
    rw [this] at hm
    rw [length_hset]
    exact hv c hm
  · rw [hget_hset_ne v hia] at hm
    rw [length_hset]
    exact hr i hi₀ hi₁ c hm

theorem deepcopy_spec :
    ∀ (fuel : Nat) (n₀ : Nat),
      (∀ (h : Heap) (x : HChild) (h' : Heap) (x' : HChild),
        deepcopyH fuel h x = (h', x') → n₀ ≤ h.length → regionClosed n₀ h →
        hframe h.length h h' ∧ regionClosed n₀ h' ∧ childInRegion h.length h'.length x') ∧
      (∀ (h : Heap) (cs : List HChild) (h' : Heap) (cs' : List HChild),
        deepcopyListH fuel h cs = (h', cs') → n₀ ≤ h.length → regionClosed n₀ h →
        hframe h.length h h' ∧ regionClosed n₀ h' ∧
        ∀ c ∈ cs', childInRegion h.length h'.length c) := by
  intro fuel
  induction fuel with
  | zero =>
    intro n₀
    constructor
    · intro h x h' x' he hn hr
      cases x with
      | hlit l =>
        obtain ⟨rfl, rfl⟩ := Prod.mk.inj he.symm
        exact ⟨hframe_refl _ _, hr, trivial⟩
      | href a =>
        simp only [deepcopyH, halloc] at he
        obtain ⟨rfl, rfl⟩ := Prod.mk.inj he.symm
        refine ⟨halloc_frame h _ h.length (le_refl _), ?_, ?_⟩
        · exact regionClosed_halloc hn hr (by intro c hm; cases hm)
        · exact ⟨le_refl _, by simp⟩
    · intro h cs h' cs' he hn hr
      cases cs with
      | nil =>
        obtain ⟨rfl, rfl⟩ := Prod.mk.inj he.symm
        exact ⟨hframe_refl _ _, hr, by intro c hm; cases hm⟩
      | cons c cs =>
        simp only [deepcopyListH] at he
        obtain ⟨rfl, rfl⟩ := Prod.mk.inj he.symm
        exact ⟨hframe_refl _ _, hr, by intro c hm; cases hm⟩
  | succ fuel ih =>
    intro n₀
    obtain ⟨ihO, ihL⟩ := ih n₀
    constructor
    · intro h x h' x' he hn hr
      cases x with
      | hlit l =>
        obtain ⟨rfl, rfl⟩ := Prod.mk.inj he.symm
        exact ⟨hframe_refl _ _, hr, trivial⟩
      | href a =>
        rcases hE : deepcopyListH fuel h (hget h a).children with ⟨h₁, cs⟩
        simp only [deepcopyH, hE, halloc] at he
        obtain ⟨rfl, rfl⟩ := Prod.mk.inj he.symm
        obtain ⟨hf₁, hr₁, hc₁⟩ := ihL h (hget h a).children h₁ cs hE hn hr
        have hn₁ : h.length ≤ h₁.length := hf₁.1
        refine ⟨?_, ?_, ?_⟩
        · exact hframe_trans hf₁
            (hframe_mono hn₁ (halloc_frame h₁ _ h₁.length (le_refl _)))
        · refine regionClosed_halloc (le_trans hn hn₁) hr₁ ?_
          intro c hm
          exact childInRegion_mono hn (Nat.le_succ _) (hc₁ c hm)
        · exact ⟨by simpa using hn₁, by simp⟩
    · intro h cs h' cs' he hn hr
      cases cs with
      | nil =>
        obtain ⟨rfl, rfl⟩ := Prod.mk.inj he.symm
        exact ⟨hframe_refl _ _, hr, by intro c hm; cases hm⟩
      | cons c cs =>
        rcases hE₁ : deepcopyH fuel h c with ⟨h₁, c₁⟩
        rcases hE₂ : deepcopyListH fuel h₁ cs with ⟨h₂, cs₁⟩
        simp only [deepcopyListH, hE₁, hE₂] at he
        obtain ⟨rfl, rfl⟩ := Prod.mk.inj he
        obtain ⟨hf₁, hr₁, hc₁⟩ := ihO h c h₁ c₁ hE₁ hn hr
        obtain ⟨hf₂, hr₂, hc₂⟩ := ihL h₁ cs h₂ cs₁ hE₂ (le_trans hn hf₁.1) hr₁
        refine ⟨hframe_trans hf₁ (hframe_mono hf₁.1 hf₂), hr₂, ?_⟩
        intro d hm
        rcases List.mem_cons.mp hm with rfl | hm
        · exact childInRegion_mono (le_refl _) hf₂.1 hc₁
        · exact childInRegion_mono hf₁.1 (le_refl _) (hc₂ d hm)

end Lariat

namespace Lariat

theorem regionClosed_top (h : Heap) : regionClosed h.length h := by
  intro a ha₀ ha₁
  omega

theorem deepcopyH_href (fuel : Nat) (h : Heap) (a : Nat) :
    ∃ h₁ a₁, deepcopyH fuel h (.href a) = (h₁, .href a₁) := by
  cases fuel with
  | zero => exact ⟨_, _, rfl⟩
  | succ fuel =>
    rcases hE : deepcopyListH fuel h (hget h a).children with ⟨h₁, cs⟩
    exact ⟨h₁ ++ [⟨(hget h a).conn, (hget h a).negated, cs⟩], h₁.length,
      by simp only [deepcopyH, hE, halloc]⟩

theorem combineH_frame (fuel : Nat) (h : Heap) (selfA : Nat) (other : HChild)
    (conn : Conn) {h' : Heap} {r : Nat}
    (he : combineH fuel h selfA other conn = (h', r)) :
    hframe h.length h h' ∧ h.length ≤ r ∧ r < h'.length := by
  have halloc_case : ∀ (h₀ : Heap) (v : QNode), hframe h.length h h₀ →
      halloc h₀ v = (h', r) → hframe h.length h h' ∧ h.length ≤ r ∧ r < h'.length := by
    intro h₀ v hf₀ hal
    simp only [halloc] at hal
    obtain ⟨rfl, rfl⟩ := Prod.mk.inj hal
    refine ⟨hframe_trans hf₀ (hframe_mono hf₀.1 (halloc_frame h₀ v h₀.length (le_refl _))), hf₀.1, by simp⟩
  have main : ∀ (h₀ : Heap) (otherA : Nat), hframe h.length h h₀ →
      (if (hget h₀ selfA).conn = conn ∧ (hget h₀ selfA).negated = false then
        match deepcopyH fuel h₀ (.href selfA) with
        | (h₁, .href objA) =>
          if (hget h₁ otherA).conn = conn ∧ (hget h₁ otherA).negated = false then
            (hset h₁ objA ⟨(hget h₁ objA).conn, (hget h₁ objA).negated,
              (hget h₁ objA).children ++ (hget h₁ otherA).children⟩, objA)
          else
            (hset h₁ objA ⟨(hget h₁ objA).conn, (hget h₁ objA).negated,
              (hget h₁ objA).children ++ [.href otherA]⟩, objA)
        | (h₁, .hlit _) => halloc h₁ ⟨conn, false, [.href selfA, .href otherA]⟩
      else halloc h₀ ⟨conn, false, [.href selfA, .href otherA]⟩) = (h', r) →
      hframe h.length h h' ∧ h.length ≤ r ∧ r < h'.length := by
    intro h₀ otherA hf₀ he₀
    by_cases hc : (hget h₀ selfA).conn = conn ∧ (hget h₀ selfA).negated = false
    · rw [if_pos hc] at he₀
      obtain ⟨h₁, objA, hd⟩ := deepcopyH_href fuel h₀ selfA
      rw [hd] at he₀
      dsimp only at he₀
      obtain ⟨hf₁, _, hreg⟩ :=
        (deepcopy_spec fuel h₀.length).1 h₀ (.href selfA) h₁ (.href objA) hd
          (le_refl _) (regionClosed_top h₀)
      obtain ⟨hA₀, hA₁⟩ := hreg
      have hfc : hframe h.length h h₁ := hframe_trans hf₀ (hframe_mono hf₀.1 hf₁)
      have hobj : h.length ≤ objA := le_trans hf₀.1 hA₀
      by_cases hc₂ : (hget h₁ otherA).conn = conn ∧ (hget h₁ otherA).negated = false
      · rw [if_pos hc₂] at he₀
        obtain ⟨rfl, rfl⟩ := Prod.mk.inj he₀
        refine ⟨hframe_trans hfc (hset_frame h₁ objA _ h.length hobj), hobj, ?_⟩
        rw [length_hset]
        exact hA₁
      · rw [if_neg hc₂] at he₀
        obtain ⟨rfl, rfl⟩ := Prod.mk.inj he₀
        refine ⟨hframe_trans hfc (hset_frame h₁ objA _ h.length hobj), hobj, ?_⟩
        rw [length_hset]
        exact hA₁
    · rw [if_neg hc] at he₀
      exact halloc_case h₀ _ hf₀ he₀
  cases other with
  | href b =>
    simp only [combineH] at he
    exact main h b (hframe_refl _ _) he
  | hlit l =>
    simp only [combineH, halloc] at he
    exact main (h ++ [⟨Conn.default, false, [.hlit l]⟩]) h.length
      (hframe_mono (le_refl _) (halloc_frame h _ h.length (le_refl _))) he

theorem invertH_frame (fuel : Nat) (h : Heap) (selfA : Nat) {h' : Heap} {r : Nat}
    (he : invertH fuel h selfA = (h', r)) :
    hframe h.length h h' ∧ h.length ≤ r ∧ r < h'.length := by
  obtain ⟨h₁, objA, hd⟩ := deepcopyH_href fuel h selfA
  simp only [invertH, hd] at he
  obtain ⟨rfl, rfl⟩ := Prod.mk.inj he
  obtain ⟨hf₁, _, hreg⟩ :=
    (deepcopy_spec fuel h.length).1 h (.href selfA) h₁ (.href objA) hd
      (le_refl _) (regionClosed_top h)
  obtain ⟨hA₀, hA₁⟩ := hreg
  refine ⟨hframe_trans hf₁ (hset_frame h₁ objA _ h.length hA₀), hA₀, ?_⟩
  rw [length_hset]
  exact hA₁

end Lariat

namespace Lariat

theorem hframe_len {n : Nat} {h h' : Heap} (a : hframe n h h') : h.length ≤ h'.length := a.1

theorem pushNeg_spec :
    ∀ (fuel n₀ : Nat),
      (∀ (h : Heap) (x : HChild) (h' : Heap) (x' : HChild),
        pushNegH fuel h x = (h', x') → n₀ ≤ h.length → regionClosed n₀ h →
        hframe h.length h h' ∧ regionClosed n₀ h' ∧ childInRegion h.length h'.length x') ∧
      (∀ (h : Heap) (cs : List HChild) (h' : Heap) (cs' : List HChild),
        pushNegNegatedH fuel h cs = (h', cs') → n₀ ≤ h.length → regionClosed n₀ h →
        hframe h.length h h' ∧ regionClosed n₀ h' ∧
        ∀ c ∈ cs', childInRegion h.length h'.length c) ∧
      (∀ (h : Heap) (cs : List HChild) (h' : Heap) (cs' : List HChild),
        pushNegPlainH fuel h cs = (h', cs') → n₀ ≤ h.length → regionClosed n₀ h →
        hframe h.length h h' ∧ regionClosed n₀ h' ∧
        ∀ c ∈ cs', childInRegion h.length h'.length c) := by
  intro fuel
  induction fuel with
  | zero =>
    intro n₀
    refine ⟨?_, ?_, ?_⟩
    · intro h x h' x' he hn hr
      cases x with
      | hlit l =>
        obtain ⟨rfl, rfl⟩ := Prod.mk.inj he
        exact ⟨hframe_refl _ _, hr, trivial⟩
      | href a =>
        simp only [pushNegH, halloc] at he
        obtain ⟨rfl, rfl⟩ := Prod.mk.inj he.symm
        refine ⟨halloc_frame h _ h.length (le_refl _), ?_, ?_⟩
        · exact regionClosed_halloc hn hr (by intro c hm; cases hm)
        · exact ⟨le_refl _, by simp⟩
    · intro h cs h' cs' he hn hr
      cases cs with
      | nil =>
        obtain ⟨rfl, rfl⟩ := Prod.mk.inj he
        exact ⟨hframe_refl _ _, hr, by intro c hm; cases hm⟩
      | cons c cs =>
        simp only [pushNegNegatedH] at he
        obtain ⟨rfl, rfl⟩ := Prod.mk.inj he
        exact ⟨hframe_refl _ _, hr, by intro c hm; cases hm⟩
    · intro h cs h' cs' he hn hr
      cases cs with
      | nil =>
        obtain ⟨rfl, rfl⟩ := Prod.mk.inj he
        exact ⟨hframe_refl _ _, hr, by intro c hm; cases hm⟩
      | cons c cs =>
        simp only [pushNegPlainH] at he
        obtain ⟨rfl, rfl⟩ := Prod.mk.inj he
        exact ⟨hframe_refl _ _, hr, by intro c hm; cases hm⟩
  | succ fuel ih =>
    intro n₀
    obtain ⟨ihO, ihN, ihP⟩ := ih n₀
    refine ⟨?_, ?_, ?_⟩
    · intro h x h' x' he hn hr
      cases x with
      | hlit l =>
        obtain ⟨rfl, rfl⟩ := Prod.mk.inj he
        exact ⟨hframe_refl _ _, hr, trivial⟩
      | href a =>
        simp only [pushNegH] at he
        by_cases hneg : (hget h a).negated = true
        · rw [if_pos hneg] at he
          rcases hE : pushNegNegatedH fuel h (hget h a).children with ⟨h₁, cs⟩
          rw [hE] at he
          simp only [halloc] at he
          obtain ⟨rfl, rfl⟩ := Prod.mk.inj he.symm
          obtain ⟨hf₁, hr₁, hc₁⟩ := ihN h (hget h a).children h₁ cs hE hn hr
          refine ⟨hframe_trans hf₁
              (hframe_mono hf₁.1 (halloc_frame h₁ _ h₁.length (le_refl _))), ?_, ?_⟩
          · refine regionClosed_halloc (le_trans hn hf₁.1) hr₁ ?_
            intro c hm
            exact childInRegion_mono hn (Nat.le_succ _) (hc₁ c hm)
          · exact ⟨by simpa using hf₁.1, by simp⟩
        · rw [if_neg hneg] at he
          rcases hE : pushNegPlainH fuel h (hget h a).children with ⟨h₁, cs⟩
          rw [hE] at he
          simp only [halloc] at he
          obtain ⟨rfl, rfl⟩ := Prod.mk.inj he.symm
          obtain ⟨hf₁, hr₁, hc₁⟩ := ihP h (hget h a).children h₁ cs hE hn hr
          refine ⟨hframe_trans hf₁
              (hframe_mono hf₁.1 (halloc_frame h₁ _ h₁.length (le_refl _))), ?_, ?_⟩
          · refine regionClosed_halloc (le_trans hn hf₁.1) hr₁ ?_
            intro c hm
            exact childInRegion_mono hn (Nat.le_succ _) (hc₁ c hm)
          · exact ⟨by simpa using hf₁.1, by simp⟩
    · intro h cs h' cs' he hn hr
      cases cs with
      | nil =>
        obtain ⟨rfl, rfl⟩ := Prod.mk.inj he
        exact ⟨hframe_refl _ _, hr, by intro c hm; cases hm⟩
      | cons c cs =>
        cases c with
        | href b =>
          obtain ⟨h₁, b₁, hd⟩ := deepcopyH_href fuel h b
          obtain ⟨hf₁, hr₁, hreg⟩ :=
            (deepcopy_spec fuel n₀).1 h (.href b) h₁ (.href b₁) hd hn hr
          obtain ⟨hb₀, hb₁⟩ := hreg
          simp only [pushNegNegatedH, hd] at he
          set v : QNode :=
            ⟨(hget h₁ b₁).conn, !(hget h₁ b₁).negated, (hget h₁ b₁).children⟩ with hv
          rcases hP : pushNegH fuel (hset h₁ b₁ v) (.href b₁) with ⟨h₃, r⟩
          rw [hP] at he
          rcases hN : pushNegNegatedH fuel h₃ cs with ⟨h₄, rs⟩
          rw [hN] at he
          obtain ⟨rfl, rfl⟩ := Prod.mk.inj he
          have hf₂ : hframe h.length h₁ (hset h₁ b₁ v) := hset_frame h₁ b₁ v h.length hb₀
          have hlen₂ : (hset h₁ b₁ v).length = h₁.length := length_hset h₁ b₁ v
          have hr₂ : regionClosed n₀ (hset h₁ b₁ v) := by
            refine regionClosed_hset hr₁ ?_
            intro c hm
            exact hr₁ b₁ (le_trans hn hb₀) hb₁ c hm
          obtain ⟨hf₃, hr₃, hc₃⟩ := ihO (hset h₁ b₁ v) (.href b₁) h₃ r hP
            (by rw [hlen₂]; exact le_trans hn hf₁.1) hr₂
          have hle₁ : h.length ≤ h₁.length := hf₁.1
          have hle₂ : h.length ≤ (hset h₁ b₁ v).length := by rw [hlen₂]; exact hle₁
          have hle₃ : h.length ≤ h₃.length := le_trans hle₂ hf₃.1
          obtain ⟨hf₄, hr₄, hc₄⟩ := ihN h₃ cs h₄ rs hN (le_trans hn hle₃) hr₃
          have hle₄ : h.length ≤ h₄.length := le_trans hle₃ hf₄.1
          refine ⟨?_, hr₄, ?_⟩
          · exact hframe_trans hf₁ (hframe_trans hf₂
              (hframe_trans (hframe_mono hle₂ hf₃) (hframe_mono hle₃ hf₄)))
          · intro c hm
            rcases List.mem_cons.mp hm with rfl | hm
            · exact childInRegion_mono hle₂ hf₄.1 hc₃
            · exact childInRegion_mono hle₃ (le_refl _) (hc₄ c hm)
        | hlit l =>
          simp only [pushNegNegatedH, halloc] at he
          rcases hN : pushNegNegatedH fuel (h ++ [⟨Conn.default, true, [.hlit l]⟩]) cs
            with ⟨h₂, rs⟩
          rw [hN] at he
          obtain ⟨rfl, rfl⟩ := Prod.mk.inj he
          have hf₁ : hframe h.length h (h ++ [⟨Conn.default, true, [.hlit l]⟩]) :=
            halloc_frame h _ h.length (le_refl _)
          have hr₁ : regionClosed n₀ (h ++ [⟨Conn.default, true, [.hlit l]⟩]) := by
            have := regionClosed_halloc hn hr
              (v := ⟨Conn.default, true, [.hlit l]⟩) (by intro c hm; simp at hm; subst hm; trivial)
            simpa [halloc] using this
          have hlen₁ : (h ++ [⟨Conn.default, true, [.hlit l]⟩] : Heap).length = h.length + 1 := by
            simp
          obtain ⟨hf₂, hr₂, hc₂⟩ := ihN _ cs h₂ rs hN
            (by rw [hlen₁]; omega) hr₁
          refine ⟨hframe_trans hf₁ (hframe_mono hf₁.1 hf₂), hr₂, ?_⟩
          intro c hm
          rcases List.mem_cons.mp hm with rfl | hm
          · refine ⟨by simp, ?_⟩
            have : h.length < (h ++ [⟨Conn.default, true, [.hlit l]⟩] : Heap).length := by simp
            exact lt_of_lt_of_le this hf₂.1
          · exact childInRegion_mono (by simp) (le_refl _) (hc₂ c hm)
    · intro h cs h' cs' he hn hr
      cases cs with
      | nil =>
        obtain ⟨rfl, rfl⟩ := Prod.mk.inj he
        exact ⟨hframe_refl _ _, hr, by intro c hm; cases hm⟩
      | cons c cs =>
        cases c with
        | href b =>
          rcases hP : pushNegH fuel h (.href b) with ⟨h₁, r⟩
          simp only [pushNegPlainH, hP] at he
          rcases hN : pushNegPlainH fuel h₁ cs with ⟨h₂, rs⟩
          rw [hN] at he
          obtain ⟨rfl, rfl⟩ := Prod.mk.inj he
          obtain ⟨hf₁, hr₁, hc₁⟩ := ihO h (.href b) h₁ r hP hn hr
          obtain ⟨hf₂, hr₂, hc₂⟩ := ihP h₁ cs h₂ rs hN (le_trans hn hf₁.1) hr₁
          refine ⟨hframe_trans hf₁ (hframe_mono hf₁.1 hf₂), hr₂, ?_⟩
          intro c hm
          rcases List.mem_cons.mp hm with rfl | hm
          · exact childInRegion_mono (le_refl _) hf₂.1 hc₁
          · exact childInRegion_mono hf₁.1 (le_refl _) (hc₂ c hm)
        | hlit l =>
          rcases hN : pushNegPlainH fuel h cs with ⟨h₂, rs⟩
          simp only [pushNegPlainH, hN] at he
          obtain ⟨rfl, rfl⟩ := Prod.mk.inj he
          obtain ⟨hf₂, hr₂, hc₂⟩ := ihP h cs h₂ rs hN hn hr
          refine ⟨hf₂, hr₂, ?_⟩
          intro c hm
          rcases List.mem_cons.mp hm with rfl | hm
          · trivial
          · exact hc₂ c hm

end Lariat

namespace Lariat

theorem findFirstOrH_split (h : Heap) :
    ∀ (cs : List HChild) {bef : List HChild} {oA : Nat} {aft : List HChild},
      findFirstOrH h cs = some (bef, oA, aft) → cs = bef ++ .href oA :: aft
  | [], _, _, _, he => nomatch he
  | c :: rest, bef, oA, aft, he => by
    cases c with
    | href b =>
      simp only [findFirstOrH] at he
      by_cases hb : (hget h b).conn = Conn.or
      · rw [if_pos hb] at he
        simp only [Option.some.injEq] at he
        obtain ⟨rfl, he₂⟩ := Prod.mk.inj he
        obtain ⟨rfl, rfl⟩ := Prod.mk.inj he₂
        simp
      · rw [if_neg hb] at he
        cases hrec : findFirstOrH h rest with
        | none => rw [hrec] at he; cases he
        | some t =>
          obtain ⟨bef₁, oA₁, aft₁⟩ := t
          rw [hrec] at he
          simp only [Option.some.injEq] at he
          obtain ⟨rfl, he₂⟩ := Prod.mk.inj he
          obtain ⟨rfl, rfl⟩ := Prod.mk.inj he₂
          have hrest := findFirstOrH_split h rest hrec
          rw [hrest]
          simp
    | hlit l =>
      simp only [findFirstOrH] at he
      cases hrec : findFirstOrH h rest with
      | none => rw [hrec] at he; cases he
      | some t =>
        obtain ⟨bef₁, oA₁, aft₁⟩ := t
        rw [hrec] at he
        simp only [Option.some.injEq] at he
        obtain ⟨rfl, he₂⟩ := Prod.mk.inj he
        obtain ⟨rfl, rfl⟩ := Prod.mk.inj he₂
        have hrest := findFirstOrH_split h rest hrec
        rw [hrest]
        simp

theorem distribute_spec :
    ∀ (fuel n₀ : Nat),
      (∀ (h : Heap) (x : HChild) (h' : Heap) (x' : HChild),
        distributeH fuel h x = (h', x') →
        n₀ ≤ h.length → regionClosed n₀ h → childInRegion n₀ h.length x →
        hframe n₀ h h' ∧ regionClosed n₀ h' ∧ childInRegion n₀ h'.length x') ∧
      (∀ (h : Heap) (cs : List HChild) (h' : Heap) (cs' : List HChild),
        distChildrenH fuel h cs = (h', cs') →
        n₀ ≤ h.length → regionClosed n₀ h → (∀ c ∈ cs, childInRegion n₀ h.length c) →
        hframe n₀ h h' ∧ regionClosed n₀ h' ∧
        ∀ c ∈ cs', childInRegion n₀ h'.length c) ∧
      (∀ (h : Heap) (items others : List HChild) (h' : Heap) (cs' : List HChild),
        distItemsH fuel h items others = (h', cs') →
        n₀ ≤ h.length → regionClosed n₀ h →
        (∀ c ∈ items, childInRegion n₀ h.length c) →
        (∀ c ∈ others, childInRegion n₀ h.length c) →
        hframe n₀ h h' ∧ regionClosed n₀ h' ∧
        ∀ c ∈ cs', childInRegion n₀ h'.length c) := by
  intro fuel
  induction fuel with
  | zero =>
    intro n₀
    refine ⟨?_, ?_, ?_⟩
    · intro h x h' x' he hn hr hx
      cases x with
      | hlit l =>
        obtain ⟨rfl, rfl⟩ := Prod.mk.inj he
        exact ⟨hframe_refl _ _, hr, trivial⟩
      | href a =>
        obtain ⟨rfl, rfl⟩ := Prod.mk.inj he
        exact ⟨hframe_refl _ _, hr, hx⟩
    · intro h cs h' cs' he hn hr hcs
      cases cs with
      | nil =>
        obtain ⟨rfl, rfl⟩ := Prod.mk.inj he
        exact ⟨hframe_refl _ _, hr, by intro c hm; cases hm⟩
      | cons c cs =>
        simp only [distChildrenH] at he
        obtain ⟨rfl, rfl⟩ := Prod.mk.inj he
        exact ⟨hframe_refl _ _, hr, hcs⟩
    · intro h items others h' cs' he hn hr hi ho
      cases items with
      | nil =>
        obtain ⟨rfl, rfl⟩ := Prod.mk.inj he
        exact ⟨hframe_refl _ _, hr, by intro c hm; cases hm⟩
      | cons item items =>
        simp only [distItemsH] at he
        obtain ⟨rfl, rfl⟩ := Prod.mk.inj he
        exact ⟨hframe_refl _ _, hr, by intro c hm; cases hm⟩
  | succ fuel ih =>
    intro n₀
    obtain ⟨ihO, ihC, ihI⟩ := ih n₀
    refine ⟨?_, ?_, ?_⟩
    · intro h x h' x' he hn hr hx
      cases x with
      | hlit l =>
        obtain ⟨rfl, rfl⟩ := Prod.mk.inj he
        exact ⟨hframe_refl _ _, hr, trivial⟩
      | href a =>
        obtain ⟨ha₀, ha₁⟩ := hx
        rcases hC : distChildrenH fuel h (hget h a).children with ⟨h₁, cs⟩
        simp only [distributeH, hC] at he
        obtain ⟨hf₁, hr₁, hc₁⟩ := ihC h (hget h a).children h₁ cs hC hn hr (hr a ha₀ ha₁)
        have hn₁ : n₀ ≤ h₁.length := le_trans hn hf₁.1
        set v : QNode := ⟨(hget h₁ a).conn, (hget h₁ a).negated, cs⟩ with hv
        have hf₂ : hframe n₀ h₁ (hset h₁ a v) := hset_frame h₁ a v n₀ ha₀
        have hr₂ : regionClosed n₀ (hset h₁ a v) := regionClosed_hset hr₁ hc₁
        have hlen₂ : (hset h₁ a v).length = h₁.length := length_hset h₁ a v
        have ha₂ : a < (hset h₁ a v).length := by
          rw [hlen₂]
          exact lt_of_lt_of_le ha₁ hf₁.1
        by_cases hand : (hget (hset h₁ a v) a).conn = Conn.and
        · rw [if_pos hand] at he
          cases hFO : findFirstOrH (hset h₁ a v) cs with
          | none =>
            rw [hFO] at he
            obtain ⟨rfl, rfl⟩ := Prod.mk.inj he
            exact ⟨hframe_trans hf₁ hf₂, hr₂, ⟨ha₀, ha₂⟩⟩
          | some t =>
            obtain ⟨bef, oA, aft⟩ := t
            rw [hFO] at he
            dsimp only at he
            rcases hI : distItemsH fuel (hset h₁ a v) (hget (hset h₁ a v) oA).children
              (bef ++ aft) with ⟨h₃, items⟩
            rw [hI] at he
            simp only [halloc] at he
            obtain ⟨rfl, rfl⟩ := Prod.mk.inj he.symm
            have hsplit := findFirstOrH_split (hset h₁ a v) cs hFO
            have hoA : childInRegion n₀ (hset h₁ a v).length (.href oA) := by
              have : HChild.href oA ∈ cs := by rw [hsplit]; simp
              rw [hlen₂]
              exact hc₁ _ this
            obtain ⟨hoA₀, hoA₁⟩ := hoA
            obtain ⟨hf₃, hr₃, hc₃⟩ := ihI (hset h₁ a v) (hget (hset h₁ a v) oA).children
              (bef ++ aft) h₃ items hI (by rw [hlen₂]; exact hn₁) hr₂
              (hr₂ oA hoA₀ hoA₁)
              (by intro c hm
                  rw [hlen₂]
                  refine hc₁ c ?_
                  rw [hsplit]
                  rcases List.mem_append.mp hm with hm | hm
                  · exact List.mem_append.mpr (Or.inl hm)
                  · exact List.mem_append.mpr (Or.inr (List.mem_cons_of_mem _ hm)))
            have hn₂ : n₀ ≤ (hset h₁ a v).length := by rw [hlen₂]; exact hn₁
            have hn₃ : n₀ ≤ h₃.length := le_trans hn₂ hf₃.1
            refine ⟨?_, ?_, ?_⟩
            · exact hframe_trans hf₁ (hframe_trans hf₂ (hframe_trans hf₃
                (halloc_frame h₃ _ n₀ hn₃)))
            · refine regionClosed_halloc hn₃ hr₃ ?_
              intro c hm
              exact childInRegion_mono (le_refl _) (Nat.le_succ _) (hc₃ c hm)
            · refine ⟨hn₃, by simp⟩
        · rw [if_neg hand] at he
          obtain ⟨rfl, rfl⟩ := Prod.mk.inj he
          exact ⟨hframe_trans hf₁ hf₂, hr₂, ⟨ha₀, ha₂⟩⟩
    · intro h cs h' cs' he hn hr hcs
      cases cs with
      | nil =>
        obtain ⟨rfl, rfl⟩ := Prod.mk.inj he
        exact ⟨hframe_refl _ _, hr, by intro c hm; cases hm⟩
      | cons c cs =>
        cases c with
        | href b =>
          rcases hB : distributeH fuel h (.href b) with ⟨h₁, r⟩
          simp only [distChildrenH, hB] at he
          rcases hR : distChildrenH fuel h₁ cs with ⟨h₂, rs⟩
          rw [hR] at he
          obtain ⟨rfl, rfl⟩ := Prod.mk.inj he
          obtain ⟨hf₁, hr₁, hc₁⟩ := ihO h (.href b) h₁ r hB hn hr
            (hcs _ (List.mem_cons_self _ _))
          obtain ⟨hf₂, hr₂, hc₂⟩ := ihC h₁ cs h₂ rs hR (le_trans hn hf₁.1) hr₁
            (fun c hm => childInRegion_mono (le_refl _) hf₁.1
              (hcs c (List.mem_cons_of_mem _ hm)))
          refine ⟨hframe_trans hf₁ hf₂, hr₂, ?_⟩
          intro c hm
          rcases List.mem_cons.mp hm with rfl | hm
          · exact childInRegion_mono (le_refl _) hf₂.1 hc₁
          · exact hc₂ c hm
        | hlit l =>
          rcases hR : distChildrenH fuel h cs with ⟨h₂, rs⟩
          simp only [distChildrenH, hR] at he
          obtain ⟨rfl, rfl⟩ := Prod.mk.inj he
          obtain ⟨hf₂, hr₂, hc₂⟩ := ihC h cs h₂ rs hR hn hr
            (fun c hm => hcs c (List.mem_cons_of_mem _ hm))
          refine ⟨hf₂, hr₂, ?_⟩
          intro c hm
          rcases List.mem_cons.mp hm with rfl | hm
          · trivial
          · exact hc₂ c hm
    · intro h items others h' cs' he hn hr hi ho
      cases items with
      | nil =>
        obtain ⟨rfl, rfl⟩ := Prod.mk.inj he
        exact ⟨hframe_refl _ _, hr, by intro c hm; cases hm⟩
      | cons item items =>
        simp only [distItemsH, halloc] at he
        rcases hD : distributeH fuel (h ++ [⟨Conn.and, false, item :: others⟩])
          (.href h.length) with ⟨h₂, r⟩
        rw [hD] at he
        rcases hI : distItemsH fuel h₂ items others with ⟨h₃, rs⟩
        rw [hI] at he
        obtain ⟨rfl, rfl⟩ := Prod.mk.inj he
        have hf₁ : hframe n₀ h (h ++ [⟨Conn.and, false, item :: others⟩]) :=
          halloc_frame h _ n₀ hn
        have hlen₁ : (h ++ [⟨Conn.and, false, item :: others⟩] : Heap).length =
            h.length + 1 := by simp
        have hr₁ : regionClosed n₀ (h ++ [⟨Conn.and, false, item :: others⟩]) := by
          have := regionClosed_halloc hn hr (v := ⟨Conn.and, false, item :: others⟩) ?_
          · simpa [halloc] using this
          · intro c hm
            rcases List.mem_cons.mp hm with rfl | hm
            · exact childInRegion_mono (le_refl _) (Nat.le_succ _)
                (hi _ (List.mem_cons_self _ _))
            · exact childInRegion_mono (le_refl _) (Nat.le_succ _) (ho c hm)
        obtain ⟨hf₂, hr₂, hc₂⟩ := ihO _ (.href h.length) h₂ r hD
          (by rw [hlen₁]; omega) hr₁ ⟨hn, by rw [hlen₁]; omega⟩
        have hn₂ : n₀ ≤ h₂.length := by
          have := hf₂.1
          rw [hlen₁] at this
          omega
        obtain ⟨hf₃, hr₃, hc₃⟩ := ihI h₂ items others h₃ rs hI hn₂ hr₂
          (by intro c hm
              refine childInRegion_mono (le_refl _) ?_ (hi c (List.mem_cons_of_mem _ hm))
              have := hf₂.1
              rw [hlen₁] at this
              omega)
          (by intro c hm
              refine childInRegion_mono (le_refl _) ?_ (ho c hm)
              have := hf₂.1
              rw [hlen₁] at this
              omega)
        refine ⟨hframe_trans hf₁ (hframe_trans hf₂ hf₃), hr₃, ?_⟩
        intro c hm
        rcases List.mem_cons.mp hm with rfl | hm
        · exact childInRegion_mono (le_refl _) hf₃.1 hc₂
        · exact hc₃ c hm

end Lariat

namespace Lariat

theorem flatten_frame :
    ∀ (fuel : Nat),
      (∀ (h : Heap) (x : HChild) (h' : Heap) (x' : HChild),
        flattenH fuel h x = (h', x') → hframe h.length h h') ∧
      (∀ (h : Heap) (c : Conn) (cs : List HChild) (h' : Heap) (cs' : List HChild),
        flattenChildrenH fuel h c cs = (h', cs') → hframe h.length h h') := by
  intro fuel
  induction fuel with
  | zero =>
    constructor
    · intro h x h' x' he
      cases x with
      | hlit l =>
        obtain ⟨rfl, rfl⟩ := Prod.mk.inj he
        exact hframe_refl _ _
      | href a =>
        obtain ⟨rfl, rfl⟩ := Prod.mk.inj he
        exact hframe_refl _ _
    · intro h c cs h' cs' he
      cases cs with
      | nil =>
        obtain ⟨rfl, rfl⟩ := Prod.mk.inj he
        exact hframe_refl _ _
      | cons d ds =>
        simp only [flattenChildrenH] at he
        obtain ⟨rfl, rfl⟩ := Prod.mk.inj he
        exact hframe_refl _ _
  | succ fuel ih =>
    obtain ⟨ihO, ihC⟩ := ih
    constructor
    · intro h x h' x' he
      cases x with
      | hlit l =>
        obtain ⟨rfl, rfl⟩ := Prod.mk.inj he
        exact hframe_refl _ _
      | href a =>
        rcases hC : flattenChildrenH fuel h (hget h a).conn (hget h a).children
          with ⟨h₁, cs⟩
        simp only [flattenH, hC, halloc] at he
        obtain ⟨rfl, rfl⟩ := Prod.mk.inj he.symm
        have hf₁ := ihC h (hget h a).conn (hget h a).children h₁ cs hC
        exact hframe_trans hf₁
          (hframe_mono hf₁.1 (halloc_frame h₁ _ h₁.length (le_refl _)))
    · intro h c cs h' cs' he
      cases cs with
      | nil =>
        obtain ⟨rfl, rfl⟩ := Prod.mk.inj he
        exact hframe_refl _ _
      | cons d ds =>
        cases d with
        | href b =>
          rcases hF : flattenH fuel h (.href b) with ⟨h₁, f⟩
          simp only [flattenChildrenH, hF] at he
          rcases hR : flattenChildrenH fuel h₁ c ds with ⟨h₂, rs⟩
          rw [hR] at he
          obtain ⟨rfl, rfl⟩ := Prod.mk.inj he
          have hf₁ := ihO h (.href b) h₁ f hF
          have hf₂ := ihC h₁ c ds h₂ rs hR
          exact hframe_trans hf₁ (hframe_mono hf₁.1 hf₂)
        | hlit l =>
          rcases hR : flattenChildrenH fuel h c ds with ⟨h₂, rs⟩
          simp only [flattenChildrenH, hR] at he
          obtain ⟨rfl, rfl⟩ := Prod.mk.inj he
          exact ihC h c ds h₂ rs hR

theorem toDnfH_frame (fuel : Nat) (h : Heap) (x : HChild) {h' : Heap} {r : HChild}
    (he : toDnfH fuel h x = (h', r)) : hframe h.length h h' := by
  cases x with
  | hlit l =>
    obtain ⟨rfl, rfl⟩ := Prod.mk.inj he
    exact hframe_refl _ _
  | href a =>
    rcases hP : pushNegH fuel h (.href a) with ⟨h₁, p⟩
    simp only [toDnfH, hP] at he
    rcases hD : distributeH fuel h₁ p with ⟨h₂, d⟩
    rw [hD] at he
    obtain ⟨hf₁, hr₁, hc₁⟩ := (pushNeg_spec fuel h.length).1 h (.href a) h₁ p hP
      (le_refl _) (regionClosed_top h)
    obtain ⟨hf₂, hr₂, hc₂⟩ := (distribute_spec fuel h.length).1 h₁ p h₂ d hD
      hf₁.1 hr₁ hc₁
    have hf₃ := (flatten_frame fuel).1 h₂ d h' r he
    exact hframe_trans hf₁ (hframe_trans hf₂
      (hframe_mono (le_trans hf₁.1 hf₂.1) hf₃))

end Lariat

namespace Lariat

/-- C4: no compiler stage mutates pre-existing objects, and builder
operations return fresh objects.  First conjunct: `Q._combine` leaves
every cell of the entry heap untouched and returns a freshly allocated
address (it deepcopies before extending a children list in place).
Second conjunct: the same for `Q.__invert__`.  Third conjunct: the
tree-transforming phase of `compile` (`to_dnf`, the only phase that
writes: `distribute` assigns `q.children` in place, but only on the
fresh copies produced by `push_negations`) never writes below the entry
heap length.  Fourth conjunct: consequently, for a caller expression
`x` living in a well-formed heap, compiling any expression `y` (which
may embed `x`) leaves `x`'s read-back structurally unchanged at every
depth, so the compile result determined by `x` is the same before and
after — compiling `x` alone and compiling a larger expression embedding
`x` both see the same tree for `x`. -/
theorem C4_no_mutation :
    (∀ (fuel : Nat) (h : Heap) (selfA : Nat) (other : HChild) (conn : Conn)
        (h' : Heap) (r : Nat),
      combineH fuel h selfA other conn = (h', r) →
      hframe h.length h h' ∧ h.length ≤ r ∧ r < h'.length) ∧
    (∀ (fuel : Nat) (h : Heap) (selfA : Nat) (h' : Heap) (r : Nat),
      invertH fuel h selfA = (h', r) →
      hframe h.length h h' ∧ h.length ≤ r ∧ r < h'.length) ∧
    (∀ (fuel : Nat) (h : Heap) (y : HChild) (h' : Heap) (r : HChild),
      toDnfH fuel h y = (h', r) → hframe h.length h h') ∧
    (∀ (st : CState) (fuel f : Nat) (h : Heap) (y x : HChild) (h' : Heap)
        (r : HChild) (e : Expr),
      toDnfH fuel h y = (h', r) →
      closedBelowB h.length h = true → childBelowB h.length x = true →
      absO h f x = some e →
      absO h' f x = some e ∧
        (absO h' f x).map (fun ex => compile st ex) = some (compile st e)) := by
  refine ⟨fun fuel h selfA other conn h' r he => combineH_frame fuel h selfA other conn he,
    fun fuel h selfA h' r he => invertH_frame fuel h selfA he,
    fun fuel h y h' r he => toDnfH_frame fuel h y he, ?_⟩
  intro st fuel f h y x h' r e he hcb hxb habs
  have hfr := toDnfH_frame fuel h y he
  have hag := (absO_agrees f (le_refl h.length) hcb hfr).1 x hxb
  rw [hag, habs]
  exact ⟨rfl, rfl⟩

/-- Witness for C4 at a concrete two-node heap: node 1 (an OR group)
embeds node 0; running the tree phase of `compile` on node 1 leaves
node 0's read-back (and hence its compile result) unchanged. -/
theorem C4_no_mutation_witness :
    closedBelowB (2 : Nat)
        [⟨Conn.default, false, [.hlit (.raw fName "==A")]⟩,
         ⟨Conn.or, false, [.href 0, .hlit (.raw fCity "==B")]⟩] = true ∧
    absO [⟨Conn.default, false, [.hlit (.raw fName "==A")]⟩,
         ⟨Conn.or, false, [.href 0, .hlit (.raw fCity "==B")]⟩] 3 (.href 0) =
      some (.q Conn.default false [.lit (.raw fName "==A")]) ∧
    (absO (toDnfH 8 [⟨Conn.default, false, [.hlit (.raw fName "==A")]⟩,
         ⟨Conn.or, false, [.href 0, .hlit (.raw fCity "==B")]⟩] (.href 1)).1 3 (.href 0) =
        some (.q Conn.default false [.lit (.raw fName "==A")]) ∧
      (absO (toDnfH 8 [⟨Conn.default, false, [.hlit (.raw fName "==A")]⟩,
         ⟨Conn.or, false, [.href 0, .hlit (.raw fCity "==B")]⟩] (.href 1)).1 3
          (.href 0)).map (fun ex => compile initState ex) =
        some (compile initState (.q Conn.default false [.lit (.raw fName "==A")]))) :=
  ⟨by decide, rfl,
    C4_no_mutation.2.2.2 initState 8 3
      [⟨Conn.default, false, [.hlit (.raw fName "==A")]⟩,
       ⟨Conn.or, false, [.href 0, .hlit (.raw fCity "==B")]⟩]
      (.href 1) (.href 0) _ _ (.q Conn.default false [.lit (.raw fName "==A")])
      rfl (by decide) (by decide) rfl⟩

end Lariat
